import Mathlib

/-!
# Verification development for the `arg` command-line parser

A shallow embedding of `include/arg/arguments.hpp`, `include/arg/adapters.hpp`,
`include/arg/errors.hpp` and `include/arg/parser.hpp`.

Conventions of the embedding:

* a C++ `std::string` / `std::string_view` is a `List Char`; one `Char` stands
  for one C++ `char`, so `size()` is `List.length`;
* the `std::shared_ptr<Data>` behind every declaration handle is an address
  into a `Heap` of `Cell`s, so that every copy of a handle (the caller's and
  the one moved into the adapter) reads and writes the same record;
* an adapter owns exactly one handle and nothing else, so an adapter is
  represented by the handle it owns and a virtual call dispatches on the kind
  of the cell behind it;
* an iterator into the token vector is the list of tokens that remain:
  `*arg` is the head, `++arg` drops it and `arg == args.end()` is `[]`;
* the parse loop has no variant, so it is run with fuel.
-/

namespace arg

/-- The text type: `std::string` and `std::string_view`. -/
abbrev Str := List Char

/-! ## Standard-library environment: string search and input streams -/

/-- The call `s.find(pat)` of `std::string_view`: position of the first
occurrence of `pat` in `s`; `none` is `npos`. -/
def find : Str → Str → Option Nat
  | [], pat => if pat.isPrefixOf ([] : Str) then some 0 else none
  | c :: cs, pat =>
    if pat.isPrefixOf (c :: cs) then some 0 else (find cs pat).map (· + 1)

/-- The call `s.substr(pos, n)`. -/
def substr (s : Str) (pos n : Nat) : Str := (s.drop pos).take n

/-- The call `s.substr(pos)`. -/
def substrFrom (s : Str) (pos : Nat) : Str := s.drop pos

/-- A `std::istringstream`: the characters not read yet and the state bits. -/
structure istringstream where
  buf : Str
  eofbit : Bool := false
  failbit : Bool := false
  badbit : Bool := false

/-- The call `stream.good()`: no state bit is set. -/
def istringstream.good (s : istringstream) : Bool :=
  !s.eofbit && !s.failbit && !s.badbit

/-- The formatted extraction `stream >> value` of a type `T`, together with
`T{}`. The law `progress` is what every standard extraction operator
satisfies: on a good stream it either reads at least one character or leaves
the stream in a state that is not good. -/
structure Extractor (T : Type) where
  init : T
  extract : istringstream → T → istringstream × T
  progress : ∀ (s : istringstream) (v : T), s.good = true →
    (extract s v).1.good = true → (extract s v).1.buf.length < s.buf.length

/-- The character class `std::isspace` of the "C" locale. -/
def isspace (c : Char) : Bool :=
  c == ' ' || c == '\t' || c == '\n' || c == Char.ofNat 11 ||
    c == Char.ofNat 12 || c == '\r'

/-- The loop `while (stream.good()) { stream >> value; }` of `read`. -/
def readLoop {T : Type} (io : Extractor T) : Nat → istringstream → T → T
  | 0, _, v => v
  | n + 1, s, v =>
    if s.good then readLoop io n (io.extract s v).1 (io.extract s v).2 else v

/-- The function template `read<T>` of adapters.hpp: `T{}`, then extraction
repeated while the stream is good. Every round of the loop that leaves the
stream good reads a character, so `s.length + 1` rounds exhaust it. -/
def read {T : Type} (io : Extractor T) (s : Str) : T :=
  readLoop io (s.length + 1) { buf := s } io.init

/-- The extraction `stream >> str` for `std::string` (default flags: leading
white space skipped, no width): the sentry fails with `eofbit | failbit` when
only white space is left, otherwise the next word replaces the string and
`eofbit` is set when the word ends with the buffer. -/
def extractString (s : istringstream) (v : Str) : istringstream × Str :=
  if s.good then
    match s.buf.dropWhile isspace with
    | [] => ({ s with buf := [], eofbit := true, failbit := true }, v)
    | c :: cs =>
      ({ s with buf := cs.dropWhile (fun x => !isspace x),
                eofbit := (cs.dropWhile (fun x => !isspace x)).isEmpty },
       c :: cs.takeWhile (fun x => !isspace x))
  else ({ s with failbit := true }, v)

/-- The bounds of the C++ type `int` (32 bits). -/
def INT_MAX : Int := 2147483647

/-- The lower bound of the C++ type `int` (32 bits). -/
def INT_MIN : Int := -2147483648

/-- The number written by a run of decimal digits. -/
def digitsValue (ds : Str) : Nat :=
  ds.foldl (fun acc d => 10 * acc + (d.toNat - 48)) 0

/-- The conversion stage of the `int` extraction: whether it fails and the
value it stores. Without a digit the value is 0 and the conversion fails; out
of range the value is clamped and the conversion fails. -/
def convertInt (negative : Bool) (ds : Str) : Bool × Int :=
  let x : Int := if negative then -(digitsValue ds : Int) else digitsValue ds
  if ds.isEmpty then (true, 0)
  else if INT_MAX < x then (true, INT_MAX)
  else if x < INT_MIN then (true, INT_MIN)
  else (false, x)

/-- The extraction `stream >> n` for `int` (decimal base, "C" locale): white
space skipped, an optional sign, then digits; `failbit` is set when the
conversion fails and `eofbit` when the digits end with the buffer. -/
def extractInt (s : istringstream) (v : Int) : istringstream × Int :=
  if s.good then
    match s.buf.dropWhile isspace with
    | [] => ({ s with buf := [], eofbit := true, failbit := true }, v)
    | c :: cs =>
      let body := if c == '-' || c == '+' then cs else c :: cs
      let r := convertInt (c == '-') (body.takeWhile Char.isDigit)
      ({ s with buf := body.dropWhile Char.isDigit,
                eofbit := (body.dropWhile Char.isDigit).isEmpty,
                failbit := r.1 }, r.2)
  else ({ s with failbit := true }, v)

/-- The extraction operator of `std::string`. -/
def stringExtractor : Extractor Str where
  init := []
  extract := extractString
  progress := by
    intro s v hs h
    have hfail : ∀ t : istringstream, t.good = true → t.failbit = false := by
      intro t ht
      unfold istringstream.good at ht
      cases hf : t.failbit <;> simp_all
    have hle : (s.buf.dropWhile isspace).length ≤ s.buf.length :=
      (List.dropWhile_suffix isspace).length_le
    unfold extractString at h ⊢
    rw [if_pos hs] at h ⊢
    cases hcs : s.buf.dropWhile isspace with
    | nil =>
      rw [hcs] at h
      have := hfail _ h
      simp at this
    | cons c cs =>
      rw [hcs] at hle
      have : (cs.dropWhile fun x => !isspace x).length ≤ cs.length :=
        (List.dropWhile_suffix _).length_le
      simp only [List.length_cons] at hle ⊢
      omega

/-- The extraction operator of `int`. -/
def intExtractor : Extractor Int where
  init := 0
  extract := extractInt
  progress := by
    intro s v hs h
    have hfail : ∀ t : istringstream, t.good = true → t.failbit = false := by
      intro t ht
      unfold istringstream.good at ht
      cases hf : t.failbit <;> simp_all
    have hle : (s.buf.dropWhile isspace).length ≤ s.buf.length :=
      (List.dropWhile_suffix isspace).length_le
    unfold extractInt at h ⊢
    rw [if_pos hs] at h ⊢
    cases hcs : s.buf.dropWhile isspace with
    | nil =>
      rw [hcs] at h
      have := hfail _ h
      simp at this
    | cons c cs =>
      rw [hcs] at hle h
      simp only [List.length_cons] at hle
      have hb2 : (if (c == '-' || c == '+') = true then cs else c :: cs).length
          ≤ cs.length + 1 := by
        split <;> simp
      have hf := hfail _ h
      simp only at hf ⊢
      have hne : ¬ (List.takeWhile Char.isDigit
          (if (c == '-' || c == '+') = true then cs else c :: cs)).isEmpty = true := by
        intro he
        have hconv : ∀ (negative : Bool) (ds : Str), ds.isEmpty = true →
            (convertInt negative ds).1 = true := by
          intro negative ds hds
          unfold convertInt
          simp only
          rw [if_pos hds]
        rw [hconv _ _ he] at hf
        exact Bool.noConfusion hf
      have hsplit := congrArg List.length (List.takeWhile_append_dropWhile Char.isDigit
        (if (c == '-' || c == '+') = true then cs else c :: cs))
      rw [List.length_append] at hsplit
      have hpos : 0 < (List.takeWhile Char.isDigit
          (if (c == '-' || c == '+') = true then cs else c :: cs)).length := by
        cases hb : List.takeWhile Char.isDigit
            (if (c == '-' || c == '+') = true then cs else c :: cs) with
        | nil =>
          rw [hb] at hne
          exact absurd rfl hne
        | cons a t => simp
      omega

/-! ## arguments.hpp: the declarations -/

/-- The record `Flag::Data`. -/
structure FlagData where
  keys : List Str := []
  help : Str := []
  value : Bool := false

/-- The record `MultiFlag::Data`. -/
structure MultiFlagData where
  keys : List Str := []
  help : Str := []
  count : Nat := 0

/-- The record `Option<T>::Data`; `value` starts as `T{}`. -/
structure OptionData (T : Type) where
  keys : List Str := []
  help : Str := []
  metavar : Str := []
  required : Bool := false
  value : T

/-- The record `MultiOption<T>::Data`. -/
structure MultiOptionData (T : Type) where
  keys : List Str := []
  help : Str := []
  metavar : Str := []
  values : List T := []

/-- The record `Value<T>::Data`; `value` starts as `T{}`. -/
structure ValueData (T : Type) where
  help : Str := []
  metavar : Str := []
  required : Bool := false
  value : T

/-- The record `MultiValue<T>::Data`. -/
structure MultiValueData (T : Type) where
  help : Str := []
  metavar : Str := []
  values : List T := []

/-- The assignment `Flag::operator=(bool value)`. -/
def FlagData.assign (d : FlagData) (value : Bool) : FlagData :=
  { d with value := value }

/-- The assignment `MultiFlag::operator=(size_t count)`. -/
def MultiFlagData.assign (d : MultiFlagData) (count : Nat) : MultiFlagData :=
  { d with count := count }

/-- The assignment `Option<T>::operator=(T&& value)`. -/
def OptionData.assign {T : Type} (d : OptionData T) (value : T) : OptionData T :=
  { d with value := value }

/-- The builder `Option<T>::defaultValue(T&& value)`. -/
def OptionData.defaultValue {T : Type} (d : OptionData T) (value : T) : OptionData T :=
  { d with value := value }

/-- The builder `Option<T>::markRequired()`. -/
def OptionData.markRequired {T : Type} (d : OptionData T) : OptionData T :=
  { d with required := true }

/-- The member `MultiOption<T>::push(T&& value)`. -/
def MultiOptionData.push {T : Type} (d : MultiOptionData T) (value : T) :
    MultiOptionData T :=
  { d with values := d.values ++ [value] }

/-- The assignment `Value<T>::operator=(T&& value)`. -/
def ValueData.assign {T : Type} (d : ValueData T) (value : T) : ValueData T :=
  { d with value := value }

/-- The member `MultiValue<T>::push(T&& value)`. -/
def MultiValueData.push {T : Type} (d : MultiValueData T) (value : T) :
    MultiValueData T :=
  { d with values := d.values ++ [value] }

/-- What a `std::shared_ptr<Data>` of one of the six declaration classes
points to. The template argument `T` comes with its extraction operator. -/
inductive Cell : Type 1 where
  | flag (d : FlagData)
  | multiFlag (d : MultiFlagData)
  | option (T : Type) (io : Extractor T) (d : OptionData T)
  | multiOption (T : Type) (io : Extractor T) (d : MultiOptionData T)
  | value (T : Type) (io : Extractor T) (d : ValueData T)
  | multiValue (T : Type) (io : Extractor T) (d : MultiValueData T)

/-- A declaration handle (and the adapter that owns a copy of it): the
address of its record. -/
abbrev Handle := Nat

/-- The records that handles point to. -/
abbrev Heap := List Cell

/-! ## adapters.hpp: the adapters -/

/-- The override `FlagAdapter::raise`: `_flag = true`. -/
def FlagAdapter.raise (d : FlagData) : FlagData := d.assign true

/-- The override `MultiFlagAdapter::raise`: `_multiFlag = true`, where the
assignment takes a `size_t` and `true` converts to 1. -/
def MultiFlagAdapter.raise (d : MultiFlagData) : MultiFlagData := d.assign 1

/-- The override `OptionAdapter<T>::addValue`: `_option = read<T>(s)`. -/
def OptionAdapter.addValue {T : Type} (io : Extractor T) (d : OptionData T) (s : Str) :
    OptionData T :=
  d.assign (read io s)

/-- The override `MultiOptionAdapter<T>::addValue`:
`_multiOption.push(read<T>(s))`. -/
def MultiOptionAdapter.addValue {T : Type} (io : Extractor T) (d : MultiOptionData T)
    (s : Str) : MultiOptionData T :=
  d.push (read io s)

/-- The override `ValueAdapter<T>::addValue`: `_value = read<T>(s)`. -/
def ValueAdapter.addValue {T : Type} (io : Extractor T) (d : ValueData T) (s : Str) :
    ValueData T :=
  d.assign (read io s)

/-- The override `MultiValueAdapter<T>::addValue`:
`_multiValue.push(read<T>(s))`. -/
def MultiValueAdapter.addValue {T : Type} (io : Extractor T) (d : MultiValueData T)
    (s : Str) : MultiValueData T :=
  d.push (read io s)

/-- The virtual `KeyAdapter::keys`. Positional records have no keys. -/
def KeyAdapter.keys : Cell → List Str
  | .flag d => d.keys
  | .multiFlag d => d.keys
  | .option _ _ d => d.keys
  | .multiOption _ _ d => d.keys
  | .value _ _ _ => []
  | .multiValue _ _ _ => []

/-- The virtual `KeyAdapter::hasArgument`. -/
def KeyAdapter.hasArgument : Cell → Bool
  | .flag _ => false
  | .multiFlag _ => false
  | .option _ _ _ => true
  | .multiOption _ _ _ => true
  | .value _ _ _ => false
  | .multiValue _ _ _ => false

/-- The virtual `KeyAdapter::isRequired`. -/
def KeyAdapter.isRequired : Cell → Bool
  | .flag _ => false
  | .multiFlag _ => false
  | .option _ _ d => d.required
  | .multiOption _ _ _ => false
  | .value _ _ _ => false
  | .multiValue _ _ _ => false

/-- The virtual `KeyAdapter::raise`; the base class does nothing. -/
def KeyAdapter.raise : Cell → Cell
  | .flag d => .flag (FlagAdapter.raise d)
  | .multiFlag d => .multiFlag (MultiFlagAdapter.raise d)
  | c => c

/-- The virtual `KeyAdapter::addValue`; the base class does nothing. -/
def KeyAdapter.addValue (s : Str) : Cell → Cell
  | .option T io d => .option T io (OptionAdapter.addValue io d s)
  | .multiOption T io d => .multiOption T io (MultiOptionAdapter.addValue io d s)
  | c => c

/-- The member `KeyAdapter::hasKey`: `std::find` over `keys()`. -/
def KeyAdapter.hasKey (c : Cell) (s : Str) : Bool := decide (s ∈ KeyAdapter.keys c)

/-- The virtual `ArgumentAdapter::isRequired`. -/
def ArgumentAdapter.isRequired : Cell → Bool
  | .value _ _ d => d.required
  | _ => false

/-- The virtual `ArgumentAdapter::multi`. -/
def ArgumentAdapter.multi : Cell → Bool
  | .multiValue _ _ _ => true
  | _ => false

/-- The virtual `ArgumentAdapter::addValue`. -/
def ArgumentAdapter.addValue (s : Str) : Cell → Cell
  | .value T io d => .value T io (ValueAdapter.addValue io d s)
  | .multiValue T io d => .multiValue T io (MultiValueAdapter.addValue io d s)
  | c => c

/-! ## errors.hpp -/

namespace err

/-- The variant `arg::err::Error`. -/
inductive Error where
  | RequiredOptionValueNotGiven (key : Str)
  | UnexpectedArgument (argument : Str)
  | UnexpectedOptionValueGiven (key : Str) (value : Str)

end err

/-! ## parser.hpp -/

/-- The struct `Config`, with its default member initialisers. -/
structure Config where
  allowKeyValueSyntax : Bool := true
  keyValueSeparator : Str := "=".toList
  allowArgumentPacking : Bool := true
  packPrefix : Str := "-".toList

/-- The struct `Parser::KeyValuePair`. -/
structure KeyValuePair where
  key : Str := []
  value : Str := []

/-- The members of `Parser`. The last three are used by `parse` without a
declaration in the class: a cursor, a switch and a token list, whose initial
values are left open here. -/
structure Parser where
  _options : List Handle := []
  _arguments : List Handle := []
  _programName : Str := "<program>".toList
  _config : Config := {}
  _position : Nat
  _collectLevtovers : Bool
  _leftovers : List Str

/-- Modelled from the spec: the member `_values`, which `parse` indexes with
the cursor and the class does not declare. The registry of the spec owns one
ordered sequence of positional adapters and "a cursor (`position`: index into
positional sequence)", so `_values` is the sequence `_arguments` that
`attach(Value<T>)` and `attach(MultiValue<T>)` fill. -/
def Parser._values (p : Parser) : List Handle := p._arguments

/-- The program state `parse` works on: the parser object and the records
behind the declaration handles. -/
structure State where
  heap : Heap
  parser : Parser

/-- A virtual call that writes: the record behind `h` is replaced by `f` of it.
A handle that points to no record changes nothing. -/
def Heap.update (heap : Heap) (h : Handle) (f : Cell → Cell) : Heap :=
  match heap[h]? with
  | some c => heap.set h (f c)
  | none => heap

/-- The call `(*it)->hasKey(key)` through the handle `h`. -/
def Heap.hasKey (heap : Heap) (h : Handle) (key : Str) : Bool :=
  match heap[h]? with
  | some c => KeyAdapter.hasKey c key
  | none => false

/-- The member `Parser::findOption`: the adapters are scanned from `rbegin()`
to `rend()` and the first one with the key is returned; `none` is `nullptr`. -/
def findOption (s : State) (key : Str) : Option Handle :=
  s.parser._options.reverse.find? fun h => s.heap.hasKey h key

/-- The member `Parser::parseKeyValue`. -/
def parseKeyValue (cfg : Config) (arg : Str) : Option KeyValuePair :=
  if !cfg.allowKeyValueSyntax then none
  else
    match find arg cfg.keyValueSeparator with
    | none => none
    | some sep =>
      some { key := substr arg 0 sep,
             value := if sep + 1 < arg.length then substrFrom arg (sep + 1) else [] }

/-- What a call of `Parser::parsePack` comes to: `std::nullopt` from one of
its two guards, or the end of the function body, which has no `return`. -/
inductive PackResult where
  | nullopt
  | noReturn
  deriving DecidableEq, Repr

/-- The member `Parser::parsePack`. After the guards the loop over the
characters behind the prefix has an empty body and the function ends. -/
def parsePack (cfg : Config) (arg : Str) : PackResult :=
  if !cfg.allowArgumentPacking then .nullopt
  else if find arg cfg.packPrefix != some 0 then .nullopt
  else .noReturn

/-- What `parse` throws, as `std::runtime_error`. The statement
`throw std::runtime_error{"no value for " + *arg}` gives no exception: it is
reached only with `arg == args.end()`, and its operand reads `*arg` before any
exception exists, so that round has no defined behaviour. -/
inductive Exception where
  | optionDoesNotAcceptValues
  deriving DecidableEq, Repr

/-- The text of the `std::runtime_error`. -/
def Exception.what : Exception → Option Str
  | .optionDoesNotAcceptValues => some "option does not accept values".toList

/-- How one round of the loop of `parse` ends. -/
inductive StepResult : Type 1 where
  /-- The round ended (by `continue` or at the end of the body); the loop
  goes on with the iterator at `rest`. -/
  | next (s : State) (rest : List Str)
  /-- An exception left `parse`. -/
  | threw (e : Exception) (s : State)
  /-- The round has no defined behaviour: it read `*arg` with
  `arg == args.end()`, or it used the value of a `parsePack` call that
  returned none. -/
  | undefined (s : State)

/-- The call `option->hasArgument()` through the handle `h`. -/
def Heap.hasArgument (heap : Heap) (h : Handle) : Bool :=
  match heap[h]? with
  | some c => KeyAdapter.hasArgument c
  | none => false

/-- The call `value->multi()` through the handle `h`. -/
def Heap.multi (heap : Heap) (h : Handle) : Bool :=
  match heap[h]? with
  | some c => ArgumentAdapter.multi c
  | none => false

/-- The two nested tests `if (auto pair = parseKeyValue(*arg); pair)` and
`if (auto option = findOption(pair->key); option)`: the adapter found for the
left part and the right part, when both tests pass. -/
def keyValueOption (s : State) (a : Str) : Option (Handle × Str) :=
  match parseKeyValue s.parser._config a with
  | some pair => (findOption s pair.key).map fun h => (h, pair.value)
  | none => none

/-- The end of the loop body, behind the pack test: the positional block and
the leftover block. The lookup `_values[_position]?` is the test
`_position < _values.size()` followed by `_values.at(_position)`. Neither
block advances the iterator. -/
def positionalFallback (s : State) (a : Str) (rest : List Str) : StepResult :=
  match s.parser._values[s.parser._position]? with
  | some h =>
    if s.heap.multi h then
      .next { s with heap := s.heap.update h (ArgumentAdapter.addValue a) } (a :: rest)
    else
      .next { heap := s.heap.update h (ArgumentAdapter.addValue a),
              parser := { s.parser with _position := s.parser._position + 1 } }
        (a :: rest)
  | none =>
    if s.parser._collectLevtovers then
      .next { s with parser :=
        { s.parser with _leftovers := s.parser._leftovers ++ [a] } } (a :: rest)
    else .next s (a :: rest)

/-- One round of the loop of `Parser::parse(const std::vector<std::string>&)`
with the iterator at `a :: rest`. Only the two keyed branches advance the
iterator. For a value-accepting adapter the iterator is advanced first; when
that reaches `args.end()` the code evaluates `"no value for " + *arg`, a read
through the past-the-end iterator. -/
def step (s : State) (a : Str) (rest : List Str) : StepResult :=
  match findOption s a with
  | some h =>
    if s.heap.hasArgument h then
      match rest with
      | [] => .undefined s
      | v :: rest' => .next { s with heap := s.heap.update h (KeyAdapter.addValue v) } rest'
    else .next { s with heap := s.heap.update h KeyAdapter.raise } rest
  | none =>
    match keyValueOption s a with
    | some (h, value) =>
      if s.heap.hasArgument h then
        .next { s with heap := s.heap.update h (KeyAdapter.addValue value) } rest
      else .threw .optionDoesNotAcceptValues s
    | none =>
      match parsePack s.parser._config a with
      | .noReturn => .undefined s
      | .nullopt => positionalFallback s a rest

/-- How a run of `parse` ends. -/
inductive Outcome : Type 1 where
  /-- The loop met `arg == args.end()` and `parse` returned. -/
  | done (s : State)
  /-- An exception left `parse`. -/
  | threw (e : Exception) (s : State)
  /-- A round of the run had no defined behaviour (see `StepResult`). -/
  | undefined (s : State)
  /-- The loop was still running when the fuel ran out. -/
  | running (s : State) (rest : List Str)

/-- The loop of `parse`, for at most `fuel` rounds. -/
def parseLoop : Nat → State → List Str → Outcome
  | _, s, [] => .done s
  | 0, s, a :: rest => .running s (a :: rest)
  | fuel + 1, s, a :: rest =>
    match step s a rest with
    | .next s' rest' => parseLoop fuel s' rest'
    | .threw e s' => .threw e s'
    | .undefined s' => .undefined s'

/-- The member `Parser::parse(const std::vector<std::string>& args)`. -/
def parse (fuel : Nat) (s : State) (args : List Str) : Outcome :=
  parseLoop fuel s args

/-- The state a round of the loop ends in. -/
def StepResult.state : StepResult → State
  | .next s _ => s
  | .threw _ s => s
  | .undefined s => s

/-- The state a run of `parse` ends in (or has reached when the fuel ran out). -/
def Outcome.state : Outcome → State
  | .done s => s
  | .threw _ s => s
  | .undefined s => s
  | .running s _ => s

/-- The declaration behind a record without what parsing writes: the value is
put back to `T{}`, `false`, 0 or the empty sequence. -/
def Cell.declaration : Cell → Cell
  | .flag d => .flag { d with value := false }
  | .multiFlag d => .multiFlag { d with count := 0 }
  | .option T io d => .option T io { d with value := io.init }
  | .multiOption T io d => .multiOption T io { d with values := [] }
  | .value T io d => .value T io { d with value := io.init }
  | .multiValue T io d => .multiValue T io { d with values := [] }

/-- What `parse` leaves alone: the adapter lists, the configuration, the
overflow switch and every declaration (kind, type, keys, help, metavar,
required mark). -/
def SameRegistry (s s' : State) : Prop :=
  s'.parser._options = s.parser._options ∧
  s'.parser._arguments = s.parser._arguments ∧
  s'.parser._config = s.parser._config ∧
  s'.parser._collectLevtovers = s.parser._collectLevtovers ∧
  ∀ i : Nat, s'.heap[i]?.map Cell.declaration = s.heap[i]?.map Cell.declaration

/-- A record with its required mark taken away. -/
def Cell.clearRequired : Cell → Cell
  | .option T io d => .option T io { d with required := false }
  | .value T io d => .value T io { d with required := false }
  | c => c

/-- The state in which no declaration is marked required. -/
def State.clearRequired (s : State) : State :=
  { s with heap := s.heap.map Cell.clearRequired }

/-- A change of the state a round ends in. -/
def StepResult.mapState (f : State → State) : StepResult → StepResult
  | .next s rest => .next (f s) rest
  | .threw e s => .threw e (f s)
  | .undefined s => .undefined (f s)

/-- A change of the state a run ends in. -/
def Outcome.mapState (f : State → State) : Outcome → Outcome
  | .done s => .done (f s)
  | .threw e s => .threw e (f s)
  | .undefined s => .undefined (f s)
  | .running s rest => .running (f s) rest

/-- The adapters of the registry that `isRequired()` holds for: keyed ones
first, then positional ones. -/
def requiredAdapters (s : State) : List Handle :=
  (s.parser._options.filter fun h =>
      match s.heap[h]? with
      | some c => KeyAdapter.isRequired c
      | none => false) ++
    s.parser._arguments.filter fun h =>
      match s.heap[h]? with
      | some c => ArgumentAdapter.isRequired c
      | none => false

/-! ## parser.hpp: declaring through the parser, and the caller's handle -/

/-- The member `Parser::attach` for a keyed declaration: the adapter that owns
the handle is pushed at the back of `_options`. -/
def Parser.attach (p : Parser) (h : Handle) : Parser :=
  { p with _options := p._options ++ [h] }

/-- The member `Parser::attach` for `Value<T>` and `MultiValue<T>`: the adapter
is pushed at the back of `_arguments`. -/
def Parser.attachArgument (p : Parser) (h : Handle) : Parser :=
  { p with _arguments := p._arguments ++ [h] }

/-- The builder `Option<T>::keys(...)` on the record behind a handle:
`_data->keys = {...}`. -/
def Cell.optionKeys (keys : List Str) : Cell → Cell
  | .option T io d => .option T io { d with keys := keys }
  | c => c

/-- The builder `Option<T>::markRequired()` on the record behind a handle. -/
def Cell.optionMarkRequired : Cell → Cell
  | .option T io d => .option T io d.markRequired
  | c => c

/-- The builder `Option<T>::defaultValue(T&&)` on the record behind a handle of
the static type `Option<T>`: `_data->value = value`. -/
def Cell.optionDefaultValue (T : Type) (io : Extractor T) (value : T) : Cell → Cell
  | .option _ _ d =>
    .option T io { keys := d.keys, help := d.help, metavar := d.metavar,
                   required := d.required, value := value }
  | c => c

/-- The call `handle.keys(...)` by the caller. -/
def OptionHandle.keys (s : State) (h : Handle) (keys : List Str) : State :=
  { s with heap := s.heap.update h (Cell.optionKeys keys) }

/-- The call `handle.markRequired()` by the caller. -/
def OptionHandle.markRequired (s : State) (h : Handle) : State :=
  { s with heap := s.heap.update h Cell.optionMarkRequired }

/-- The call `handle.defaultValue(value)` by the caller. -/
def OptionHandle.defaultValue (s : State) (h : Handle) (T : Type) (io : Extractor T)
    (value : T) : State :=
  { s with heap := s.heap.update h (Cell.optionDefaultValue T io value) }

/-- The read `*handle` by the caller: the record behind the handle, whose
`value` is what `operator*` returns. -/
def OptionHandle.deref (s : State) (h : Handle) : Option Cell := s.heap[h]?

/-- The member `Parser::option<T>(keys...)`, that is
`addArgumentWithKeys<Option<T>>`: `T arg;` makes a fresh record behind a new
handle, `arg.keys(keys...)` stores the keys, `attach(arg)` moves a copy of the
handle into an adapter, and the handle is returned. -/
def Parser.option (s : State) (T : Type) (io : Extractor T) (keys : List Str) :
    State × Handle :=
  ({ heap := s.heap ++ [.option T io { keys := keys, value := io.init }],
     parser := s.parser.attach s.heap.length },
   s.heap.length)

/-- The way examples/01_simple.cpp declares: `parser.option<T>()` with the keys
`keys0` (none in the example), then, through the returned handle and so after
the attachment, `.keys(keys)`, `.markRequired()` and `.defaultValue(value)`.
The state after these calls and the caller's handle. -/
def declareThroughHandle (s : State) (T : Type) (io : Extractor T) (keys0 keys : List Str)
    (value : T) : State × Handle :=
  (OptionHandle.defaultValue
      (OptionHandle.markRequired
        (OptionHandle.keys (Parser.option s T io keys0).1 (Parser.option s T io keys0).2 keys)
        (Parser.option s T io keys0).2)
      (Parser.option s T io keys0).2 T io value,
   (Parser.option s T io keys0).2)

/-! ## The last word of a text, in the words of the specification -/

/-- The white-space-delimited words of a text behind a word `cur` that has
been begun: a white-space character ends the word begun, any other character
is added to it. -/
def wordsAux : Str → Str → List Str
  | cur, [] => if cur.isEmpty then [] else [cur]
  | cur, c :: cs =>
    if isspace c then
      if cur.isEmpty then wordsAux [] cs else cur :: wordsAux [] cs
    else wordsAux (cur ++ [c]) cs

/-- The white-space-delimited words of a text, in order. -/
def words (s : Str) : List Str := wordsAux [] s

/-- The last white-space-delimited word of a text, the empty text when it has
no word. -/
def lastWord (s : Str) : Str := (words s).getLast?.getD []

/-! ## Registries used as examples -/

/-- The declarations of examples/01_simple.cpp: `string` (required, keys `-s`
and `--string`) at address 0 and `number` (default 3, keys `-n` and
`--number`) at address 1, attached in this order. -/
def simpleExample : State where
  heap :=
    [.option Str stringExtractor
        { keys := ["-s".toList, "--string".toList], required := true, value := [] },
     .option Int intExtractor
        { keys := ["-n".toList, "--number".toList], value := 3 }]
  parser := { _options := [0, 1], _position := 0, _collectLevtovers := false,
              _leftovers := [] }

/-- Two options sharing the key `-x`: `A` at address 0 attached first, `B` at
address 1 attached second. -/
def sharedKeyExample : State where
  heap :=
    [.option Int intExtractor { keys := ["-x".toList], value := 0 },
     .option Int intExtractor { keys := ["-x".toList, "-y".toList], value := 0 }]
  parser := { _options := [0, 1], _position := 0, _collectLevtovers := false,
              _leftovers := [] }

/-- A `MultiOption<int>` with the key `-n` at address 0, holding nothing. -/
def multiOptionExample : State where
  heap := [.multiOption Int intExtractor { keys := ["-n".toList] }]
  parser := { _options := [0], _position := 0, _collectLevtovers := false,
              _leftovers := [] }

/-- A `Flag` with the key `-f` at address 0 and a `MultiFlag` with the key `-v`
at address 1, both untouched. -/
def flagsExample : State where
  heap := [.flag { keys := ["-f".toList] }, .multiFlag { keys := ["-v".toList] }]
  parser := { _options := [0, 1], _position := 0, _collectLevtovers := false,
              _leftovers := [] }

/-- Two single-value positionals of type `std::string`: `P1` at address 0 and
`P2` at address 1, attached in this order, cursor at the start, overflow
collection off. -/
def positionalExample : State where
  heap := [.value Str stringExtractor { value := [] },
           .value Str stringExtractor { value := [] }]
  parser := { _arguments := [0, 1], _position := 0, _collectLevtovers := false,
              _leftovers := [] }

/-- Two `Flag`s with the one-character keys `-a` (address 0) and `-b`
(address 1). -/
def packExample : State where
  heap := [.flag { keys := ["-a".toList] }, .flag { keys := ["-b".toList] }]
  parser := { _options := [0, 1], _position := 0, _collectLevtovers := false,
              _leftovers := [] }

/-- A registry without any declaration; the overflow switch is the argument. -/
def emptyExample (collect : Bool) : State where
  heap := []
  parser := { _position := 0, _collectLevtovers := collect, _leftovers := [] }

/-- A `MultiValue<std::string>` at address 0 followed by a
`Value<std::string>` at address 1, cursor at the start. -/
def multiValueExample : State where
  heap := [.multiValue Str stringExtractor {},
           .value Str stringExtractor { value := [] }]
  parser := { _arguments := [0, 1], _position := 0, _collectLevtovers := false,
              _leftovers := [] }

/-- An `Option<std::string>` with the key `-a` at address 0 and a `Flag` whose
key `-a=b` contains the separator at address 1. -/
def priorityExample : State where
  heap := [.option Str stringExtractor { keys := ["-a".toList], value := [] },
           .flag { keys := ["-a=b".toList] }]
  parser := { _options := [0, 1], _position := 0, _collectLevtovers := false,
              _leftovers := [] }

/-- A `Flag` with the key `--o` at address 0 and an `Option<std::string>`
whose key `--o=x` contains the separator at address 1. -/
def separatorKeyExample : State where
  heap := [.flag { keys := ["--o".toList] },
           .option Str stringExtractor { keys := ["--o=x".toList], value := [] }]
  parser := { _options := [0, 1], _position := 0, _collectLevtovers := false,
              _leftovers := [] }

/-! ## Auxiliary facts -/

/-- The loop of `read` gives the same value with any fuel above the length of
the buffer: the fuel `read` runs it with is enough. -/
theorem readLoop_fuel {T : Type} (io : Extractor T) (n m : Nat) (s : istringstream) (v : T)
    (hn : s.buf.length < n) (hm : s.buf.length < m) :
    readLoop io n s v = readLoop io m s v := by
  have hstop : ∀ (k : Nat) (t : istringstream) (w : T), t.good = false →
      readLoop io k t w = w := by
    intro k t w ht
    cases k with
    | zero => rfl
    | succ k => simp [readLoop, ht]
  induction n generalizing m s v with
  | zero => exact absurd hn (Nat.not_lt_zero _)
  | succ n ih =>
    cases m with
    | zero => exact absurd hm (Nat.not_lt_zero _)
    | succ m =>
      unfold readLoop
      by_cases hs : s.good = true
      · rw [if_pos hs, if_pos hs]
        by_cases hg : (io.extract s v).1.good = true
        · have hlt := io.progress s v hs hg
          exact ih m _ _ (by omega) (by omega)
        · have hg' : (io.extract s v).1.good = false := by
            cases hx : (io.extract s v).1.good
            · rfl
            · exact absurd hx hg
          rw [hstop n _ _ hg', hstop m _ _ hg']
      · rw [if_neg hs, if_neg hs]

/-- Values of `read` for `std::string` and `int`. -/
theorem read_examples :
    read stringExtractor "hi".toList = "hi".toList ∧
      read stringExtractor "a b ".toList = "b".toList ∧
      read stringExtractor "".toList = "".toList ∧
      read intExtractor "5".toList = 5 ∧
      read intExtractor "12abc".toList = 0 ∧
      read intExtractor " -42 ".toList = -42 ∧
      read intExtractor "99999999999".toList = INT_MAX := by
  decide

theorem Heap.update_of_some (heap : Heap) (h : Handle) (f : Cell → Cell) (c : Cell)
    (hc : heap[h]? = some c) : heap.update h f = heap.set h (f c) := by
  unfold Heap.update
  rw [hc]

theorem Heap.getElem?_update (heap : Heap) (h i : Handle) (f : Cell → Cell) :
    (heap.update h f)[i]? = if h = i then heap[i]?.map f else heap[i]? := by
  unfold Heap.update
  cases hc : heap[h]? with
  | none =>
    by_cases hi : h = i
    · subst hi
      simp [hc]
    · simp [hi]
  | some c =>
    by_cases hi : h = i
    · subst hi
      simp only [if_true]
      rw [List.getElem?_set, hc]
      simp only [if_true]
      have hlt : h < heap.length := by
        rcases List.getElem?_eq_some.mp hc with ⟨hl, _⟩
        exact hl
      simp [hlt]
    · simp only [if_neg hi]
      exact List.getElem?_set_ne hi

theorem Heap.getElem?_update_ne (heap : Heap) (h i : Handle) (f : Cell → Cell)
    (hi : h ≠ i) : (heap.update h f)[i]? = heap[i]? := by
  rw [Heap.getElem?_update, if_neg hi]

theorem KeyAdapter.keys_addValue (v : Str) (c : Cell) :
    KeyAdapter.keys (KeyAdapter.addValue v c) = KeyAdapter.keys c := by
  cases c <;> rfl

theorem KeyAdapter.keys_raise (c : Cell) :
    KeyAdapter.keys (KeyAdapter.raise c) = KeyAdapter.keys c := by
  cases c <;> rfl

theorem ArgumentAdapter.keys_addValue_positional (v : Str) (c : Cell) :
    KeyAdapter.keys (ArgumentAdapter.addValue v c) = KeyAdapter.keys c := by
  cases c <;> rfl

theorem Heap.hasKey_congr (heap heap' : Heap) (h : Handle) (key : Str)
    (hkeys : heap'[h]?.map KeyAdapter.keys = heap[h]?.map KeyAdapter.keys) :
    heap'.hasKey h key = heap.hasKey h key := by
  unfold Heap.hasKey KeyAdapter.hasKey
  cases h1 : heap'[h]? <;> cases h2 : heap[h]? <;> simp_all

/-- The lookup `findOption` reads the adapter list and the key lists only. -/
theorem findOption_congr (s s' : State) (key : Str)
    (hopt : s'.parser._options = s.parser._options)
    (hkeys : ∀ i : Nat, s'.heap[i]?.map KeyAdapter.keys = s.heap[i]?.map KeyAdapter.keys) :
    findOption s' key = findOption s key := by
  unfold findOption
  rw [hopt]
  congr 1
  funext h
  exact Heap.hasKey_congr _ _ _ _ (hkeys h)

theorem findOption_update (s : State) (h : Handle) (f : Cell → Cell) (key : Str)
    (hf : ∀ c, KeyAdapter.keys (f c) = KeyAdapter.keys c) :
    findOption { s with heap := s.heap.update h f } key = findOption s key := by
  refine findOption_congr s { s with heap := s.heap.update h f } key rfl ?_
  intro i
  show (s.heap.update h f)[i]?.map KeyAdapter.keys = _
  rw [Heap.getElem?_update]
  by_cases hi : h = i
  · rw [if_pos hi]
    cases s.heap[i]? with
    | none => rfl
    | some c => simp [hf]
  · rw [if_neg hi]

theorem Heap.hasKey_iff (heap : Heap) (h : Handle) (key : Str) :
    heap.hasKey h key = true ↔ ∃ c, heap[h]? = some c ∧ key ∈ KeyAdapter.keys c := by
  unfold Heap.hasKey KeyAdapter.hasKey
  cases heap[h]? <;> simp

/-- A handle returned by `findOption` points to a record that has the key. -/
theorem findOption_some_cell (s : State) (key : Str) (h : Handle)
    (hfind : findOption s key = some h) :
    ∃ c, s.heap[h]? = some c ∧ key ∈ KeyAdapter.keys c := by
  unfold findOption at hfind
  have hp : s.heap.hasKey h key = true :=
    List.find?_some (p := fun x => s.heap.hasKey x key) hfind
  exact (Heap.hasKey_iff _ _ _).mp hp

/-- The handle `findOption` returns is the last one in `_options` with the key. -/
theorem findOption_eq_some_iff (s : State) (key : Str) (h : Handle) :
    findOption s key = some h ↔
      ∃ pre post, s.parser._options = pre ++ h :: post ∧ s.heap.hasKey h key = true ∧
        ∀ x ∈ post, s.heap.hasKey x key = false := by
  unfold findOption
  rw [List.find?_eq_some]
  constructor
  · rintro ⟨hp, as, bs, hrev, hnot⟩
    refine ⟨bs.reverse, as.reverse, ?_, hp, ?_⟩
    · have := congrArg List.reverse hrev
      simpa using this
    · intro x hx
      have := hnot x (List.mem_reverse.mp hx)
      simpa using this
  · rintro ⟨pre, post, hopt, hp, hnot⟩
    refine ⟨hp, post.reverse, pre.reverse, ?_, ?_⟩
    · rw [hopt]
      simp
    · intro x hx
      have := hnot x (List.mem_reverse.mp hx)
      simp [this]

theorem findOption_eq_none_iff (s : State) (key : Str) :
    findOption s key = none ↔ ∀ x ∈ s.parser._options, s.heap.hasKey x key = false := by
  unfold findOption
  rw [List.find?_eq_none]
  simp

theorem find_single (k v : Str) (c : Char) (hk : c ∉ k) :
    find (k ++ c :: v) [c] = some k.length := by
  induction k with
  | nil => simp [find, List.isPrefixOf]
  | cons a k ih =>
    have hne : c ≠ a := fun e => hk (e ▸ List.mem_cons_self _ _)
    have hk2 : c ∉ k := fun e => hk (List.mem_cons_of_mem _ e)
    simp [find, List.isPrefixOf, hne, ih hk2]

/-- Splitting `k=v` at `=` gives back `k` and `v` when `k` has no `=`. -/
theorem parseKeyValue_joined (cfg : Config) (k v : Str)
    (hkv : cfg.allowKeyValueSyntax = true) (hsep : cfg.keyValueSeparator = "=".toList)
    (hk : '=' ∉ k) :
    parseKeyValue cfg (k ++ "=".toList ++ v) = some { key := k, value := v } := by
  have hfind : find (k ++ '=' :: v) ['='] = some k.length := find_single k v '=' hk
  unfold parseKeyValue
  rw [hkv, hsep]
  have e1 : "=".toList = ['='] := rfl
  rw [e1]
  have e2 : k ++ ['='] ++ v = k ++ '=' :: v := by simp
  rw [e2, hfind]
  simp only [Bool.not_true, Bool.false_eq_true, if_false, substr, substrFrom, List.drop_zero]
  congr 2
  · simp
  · cases v with
    | nil => simp
    | cons a v =>
      have : k.length + 1 < (k ++ '=' :: a :: v).length := by simp
      rw [if_pos this]
      have e3 : k ++ '=' :: a :: v = (k ++ ['=']) ++ (a :: v) := by simp
      rw [e3]
      have hl : (k ++ ['=']).length = k.length + 1 := by simp
      rw [← hl, List.drop_left]

theorem parseLoop_nil (fuel : Nat) (s : State) : parseLoop fuel s [] = .done s := by
  cases fuel <;> rfl

theorem Heap.hasArgument_of_cell (heap : Heap) (h : Handle) (c : Cell)
    (hc : heap[h]? = some c) : heap.hasArgument h = KeyAdapter.hasArgument c := by
  unfold Heap.hasArgument
  rw [hc]

/-- An exact key of a value-accepting adapter followed by a token: the token
is handed to `addValue` and both are passed over. -/
theorem step_key_value (s : State) (a v : Str) (rest : List Str) (h : Handle)
    (hfind : findOption s a = some h) (harg : s.heap.hasArgument h = true) :
    step s a (v :: rest) =
      .next { s with heap := s.heap.update h (KeyAdapter.addValue v) } rest := by
  unfold step
  rw [hfind]
  simp only [harg, if_true]

/-- An exact key of an adapter that takes no value: the adapter is raised. -/
theorem step_key_raise (s : State) (a : Str) (rest : List Str) (h : Handle)
    (hfind : findOption s a = some h) (harg : s.heap.hasArgument h = false) :
    step s a rest = .next { s with heap := s.heap.update h KeyAdapter.raise } rest := by
  unfold step
  rw [hfind]
  simp only [harg, Bool.false_eq_true, if_false]

theorem keyValueOption_of_pair (s : State) (a : Str) (pair : KeyValuePair) (h : Handle)
    (hpair : parseKeyValue s.parser._config a = some pair)
    (hfind : findOption s pair.key = some h) :
    keyValueOption s a = some (h, pair.value) := by
  unfold keyValueOption
  rw [hpair]
  simp only [hfind, Option.map_some']

/-- A token that is no key and splits into a key of a value-accepting adapter
and a value. -/
theorem step_pair_value (s : State) (a : Str) (rest : List Str) (pair : KeyValuePair)
    (h : Handle) (hnone : findOption s a = none)
    (hpair : parseKeyValue s.parser._config a = some pair)
    (hfind : findOption s pair.key = some h) (harg : s.heap.hasArgument h = true) :
    step s a rest =
      .next { s with heap := s.heap.update h (KeyAdapter.addValue pair.value) } rest := by
  unfold step
  rw [hnone]
  simp only [keyValueOption_of_pair s a pair h hpair hfind, harg, if_true]

/-- A token that is no key and splits into a key of an adapter that takes no
value and a value. -/
theorem step_pair_flag (s : State) (a : Str) (rest : List Str) (pair : KeyValuePair)
    (h : Handle) (hnone : findOption s a = none)
    (hpair : parseKeyValue s.parser._config a = some pair)
    (hfind : findOption s pair.key = some h) (harg : s.heap.hasArgument h = false) :
    step s a rest = .threw .optionDoesNotAcceptValues s := by
  unfold step
  rw [hnone]
  simp only [keyValueOption_of_pair s a pair h hpair hfind, harg, Bool.false_eq_true,
    if_false]

/-- A token that is no key, gives no key-value pair with a known key and is
no pack: the round is the positional fallback. -/
theorem step_fallback (s : State) (a : Str) (rest : List Str)
    (hnone : findOption s a = none) (hkv : keyValueOption s a = none)
    (hpack : parsePack s.parser._config a = .nullopt) :
    step s a rest = positionalFallback s a rest := by
  unfold step
  rw [hnone]
  simp only [hkv, hpack]

/-! ## C1: the two syntaxes give the same value -/

/-- C1. With key-value syntax enabled and separator `=`, for an `Option<T>`
that the key `k` resolves to, where `k` has no `=` and the token `k=v` is no
registered key, `parse` on `[k, v]` and `parse` on `[k=v]` both return, with
the same state: the option holds `read(v)` and nothing else has changed. -/
theorem parse_syntax_equivalence (s : State) (T : Type) (io : Extractor T)
    (d : OptionData T) (h : Handle) (k v : Str) (fuel : Nat)
    (hkv : s.parser._config.allowKeyValueSyntax = true)
    (hsep : s.parser._config.keyValueSeparator = "=".toList)
    (hfind : findOption s k = some h)
    (hcell : s.heap[h]? = some (.option T io d))
    (hk : '=' ∉ k)
    (hjoined : findOption s (k ++ "=".toList ++ v) = none) :
    parse (fuel + 1) s [k, v] =
        .done { s with heap := s.heap.set h (.option T io { d with value := read io v }) } ∧
      parse (fuel + 1) s [k ++ "=".toList ++ v] =
        .done { s with heap := s.heap.set h (.option T io { d with value := read io v }) } := by
  have harg : s.heap.hasArgument h = true := by
    rw [Heap.hasArgument_of_cell _ _ _ hcell]
    rfl
  have hupd : s.heap.update h (KeyAdapter.addValue v) =
      s.heap.set h (.option T io { d with value := read io v }) := by
    rw [Heap.update_of_some _ _ _ _ hcell]
    rfl
  constructor
  · show parseLoop (fuel + 1) s [k, v] = _
    unfold parseLoop
    rw [step_key_value s k v [] h hfind harg]
    simp only [parseLoop_nil, hupd]
  · show parseLoop (fuel + 1) s [k ++ "=".toList ++ v] = _
    unfold parseLoop
    have hpair := parseKeyValue_joined s.parser._config k v hkv hsep hk
    rw [step_pair_value s _ [] _ h hjoined hpair hfind harg]
    simp only [parseLoop_nil, hupd]

/-- C1 at the registry of examples/01_simple.cpp: `-s hi` and `-s=hi`. -/
theorem parse_syntax_equivalence_witness :
    parse 1 simpleExample ["-s".toList, "hi".toList] =
        .done { simpleExample with
          heap := simpleExample.heap.set 0 (.option Str stringExtractor
            { keys := ["-s".toList, "--string".toList], required := true,
              value := "hi".toList }) } ∧
      parse 1 simpleExample ["-s=hi".toList] =
        .done { simpleExample with
          heap := simpleExample.heap.set 0 (.option Str stringExtractor
            { keys := ["-s".toList, "--string".toList], required := true,
              value := "hi".toList }) } :=
  parse_syntax_equivalence simpleExample Str stringExtractor
    { keys := ["-s".toList, "--string".toList], required := true, value := [] }
    0 "-s".toList "hi".toList 0 rfl rfl rfl rfl (by decide) rfl

/-! ## C2: the last registration shadows -/

/-- C2. For every registry and token `t`, `findOption(t)` returns the last
adapter of `_options` whose key list has `t`, and nothing exactly when no key
list has `t`. Hence, when `A` is attached before `B`, both have the key `t`,
no adapter after `B` has it and `B` is an `Option<T>`, `parse` on `[t, v]`
returns with `B` holding `read(v)` and `A` as it was. -/
theorem findOption_last_registration_shadows (s : State) (t : Str) :
    (∀ h : Handle, findOption s t = some h ↔
      ∃ pre post, s.parser._options = pre ++ h :: post ∧ s.heap.hasKey h t = true ∧
        ∀ x ∈ post, s.heap.hasKey x t = false) ∧
    (findOption s t = none ↔ ∀ x ∈ s.parser._options, s.heap.hasKey x t = false) ∧
    (∀ (A B : Handle) (pre mid post : List Handle) (T : Type) (io : Extractor T)
        (d : OptionData T) (v : Str) (fuel : Nat),
      s.parser._options = pre ++ A :: mid ++ B :: post →
      s.heap.hasKey A t = true → s.heap.hasKey B t = true →
      (∀ x ∈ post, s.heap.hasKey x t = false) →
      A ≠ B → s.heap[B]? = some (.option T io d) →
      ∃ s', parse (fuel + 1) s [t, v] = .done s' ∧
        s'.heap[B]? = some (.option T io { d with value := read io v }) ∧
        s'.heap[A]? = s.heap[A]?) := by
  refine ⟨findOption_eq_some_iff s t, findOption_eq_none_iff s t, ?_⟩
  intro A B pre mid post T io d v fuel hopt _hA hB hpost hAB hcell
  have hfind : findOption s t = some B :=
    (findOption_eq_some_iff s t B).mpr ⟨pre ++ A :: mid, post, by simp [hopt], hB, hpost⟩
  have harg : s.heap.hasArgument B = true := by
    rw [Heap.hasArgument_of_cell _ _ _ hcell]
    rfl
  refine ⟨{ s with heap := s.heap.update B (KeyAdapter.addValue v) }, ?_, ?_, ?_⟩
  · show parseLoop (fuel + 1) s [t, v] = _
    unfold parseLoop
    rw [step_key_value s t v [] B hfind harg]
    simp only [parseLoop_nil]
  · show (s.heap.update B (KeyAdapter.addValue v))[B]? = _
    rw [Heap.getElem?_update, if_pos rfl, hcell]
    rfl
  · show (s.heap.update B (KeyAdapter.addValue v))[A]? = _
    exact Heap.getElem?_update_ne _ _ _ _ (Ne.symm hAB)

/-- C2 at `sharedKeyExample`: `-x` resolves to `B`, and `-x 5` sets `B` to 5
and leaves `A` at 0. -/
theorem findOption_last_registration_shadows_witness :
    findOption sharedKeyExample "-x".toList = some 1 ∧
      ∃ s', parse 1 sharedKeyExample ["-x".toList, "5".toList] = .done s' ∧
        s'.heap[1]? = some (.option Int intExtractor
          { keys := ["-x".toList, "-y".toList], value := 5 }) ∧
        s'.heap[0]? = some (.option Int intExtractor
          { keys := ["-x".toList], value := 0 }) :=
  ⟨((findOption_last_registration_shadows sharedKeyExample "-x".toList).1 1).mpr
      ⟨[0], [], rfl, rfl, by simp⟩,
    (findOption_last_registration_shadows sharedKeyExample "-x".toList).2.2
      0 1 [] [] [] Int intExtractor { keys := ["-x".toList, "-y".toList], value := 0 }
      "5".toList 0 rfl rfl rfl (by simp) (by decide) rfl⟩

/-! ## C3: a `MultiOption` accumulates in encounter order -/

theorem Heap.set_same (heap : Heap) (h : Handle) (c : Cell) (hc : heap[h]? = some c) :
    heap.set h c = heap := by
  apply List.ext_getElem?
  intro i
  by_cases hi : h = i
  · subst hi
    rw [List.getElem?_set, hc]
    have hlt : h < heap.length := by
      rcases List.getElem?_eq_some.mp hc with ⟨hl, _⟩
      exact hl
    simp [hlt]
  · exact List.getElem?_set_ne hi

theorem Heap.getElem?_set_self (heap : Heap) (h : Handle) (c c' : Cell)
    (hc : heap[h]? = some c) : (heap.set h c')[h]? = some c' := by
  have hlt : h < heap.length := by
    rcases List.getElem?_eq_some.mp hc with ⟨hl, _⟩
    exact hl
  rw [List.getElem?_set]
  simp [hlt]

/-- C3. For a `MultiOption<T>` that the key `k` resolves to and every list of
value texts `v1..vn`, `parse` on `[k, v1, ..., k, vn]` returns (after `n`
rounds of the loop) and the accumulated sequence is the one held before
followed by `read(v1), ..., read(vn)` in this order; nothing else changes. -/
theorem parse_multiOption_accumulates (T : Type) (io : Extractor T) (k : Str)
    (h : Handle) (vs : List Str) (s : State) (d : MultiOptionData T) (fuel : Nat)
    (hfind : findOption s k = some h)
    (hcell : s.heap[h]? = some (.multiOption T io d))
    (hfuel : vs.length ≤ fuel) :
    parse fuel s (vs.flatMap fun v => [k, v]) =
      .done { s with
        heap := s.heap.set h (.multiOption T io
          { d with values := d.values ++ vs.map (read io) }) } := by
  unfold parse
  induction vs generalizing s d fuel with
  | nil =>
    simp only [List.flatMap_nil, List.map_nil, List.append_nil, parseLoop_nil]
    rw [Heap.set_same _ _ _ hcell]
  | cons v vs ih =>
    cases fuel with
    | zero => simp at hfuel
    | succ fuel =>
      have harg : s.heap.hasArgument h = true := by
        rw [Heap.hasArgument_of_cell _ _ _ hcell]
        rfl
      have hupd : s.heap.update h (KeyAdapter.addValue v) =
          s.heap.set h (.multiOption T io (d.push (read io v))) := by
        rw [Heap.update_of_some _ _ _ _ hcell]
        rfl
      simp only [List.flatMap_cons, List.cons_append, List.nil_append]
      unfold parseLoop
      rw [step_key_value s k v _ h hfind harg]
      simp only
      have hfind' : findOption { s with heap := s.heap.update h (KeyAdapter.addValue v) } k
          = some h := by
        rw [findOption_update _ _ _ _ (KeyAdapter.keys_addValue v)]
        exact hfind
      have hcell' : ({ s with heap := s.heap.update h (KeyAdapter.addValue v) } : State).heap[h]?
          = some (.multiOption T io (d.push (read io v))) := by
        show (s.heap.update h (KeyAdapter.addValue v))[h]? = _
        rw [hupd]
        exact Heap.getElem?_set_self _ _ _ _ hcell
      rw [ih _ (d.push (read io v)) fuel hfind' hcell' (by simpa using hfuel)]
      simp only [hupd, List.set_set, MultiOptionData.push, List.map_cons,
        List.append_assoc, List.singleton_append]

/-- C3 at `multiOptionExample`: `-n 1 -n 2 -n 3` yields `[1, 2, 3]`. -/
theorem parse_multiOption_accumulates_witness :
    parse 3 multiOptionExample
        ["-n".toList, "1".toList, "-n".toList, "2".toList, "-n".toList, "3".toList] =
      .done { multiOptionExample with
        heap := [.multiOption Int intExtractor
          { keys := ["-n".toList], values := [1, 2, 3] }] } :=
  parse_multiOption_accumulates Int intExtractor "-n".toList 0
    ["1".toList, "2".toList, "3".toList] multiOptionExample { keys := ["-n".toList] } 3
    rfl rfl (by decide)

/-! ## What a run of `parse` never changes -/

theorem Cell.declaration_keyAddValue (v : Str) (c : Cell) :
    (KeyAdapter.addValue v c).declaration = c.declaration := by
  cases c <;> rfl

theorem Cell.declaration_raise (c : Cell) :
    (KeyAdapter.raise c).declaration = c.declaration := by
  cases c <;> rfl

theorem Cell.declaration_argumentAddValue (v : Str) (c : Cell) :
    (ArgumentAdapter.addValue v c).declaration = c.declaration := by
  cases c <;> rfl

theorem Cell.keys_declaration (c : Cell) :
    KeyAdapter.keys c.declaration = KeyAdapter.keys c := by
  cases c <;> rfl

theorem Cell.hasArgument_declaration (c : Cell) :
    KeyAdapter.hasArgument c.declaration = KeyAdapter.hasArgument c := by
  cases c <;> rfl

theorem Cell.multi_declaration (c : Cell) :
    ArgumentAdapter.multi c.declaration = ArgumentAdapter.multi c := by
  cases c <;> rfl

theorem SameRegistry.refl (s : State) : SameRegistry s s :=
  ⟨rfl, rfl, rfl, rfl, fun _ => rfl⟩

theorem SameRegistry.trans {s s' s'' : State} (h1 : SameRegistry s s')
    (h2 : SameRegistry s' s'') : SameRegistry s s'' :=
  ⟨h2.1.trans h1.1, h2.2.1.trans h1.2.1, h2.2.2.1.trans h1.2.2.1,
    h2.2.2.2.1.trans h1.2.2.2.1, fun i => (h2.2.2.2.2 i).trans (h1.2.2.2.2 i)⟩

theorem SameRegistry.update (s : State) (h : Handle) (f : Cell → Cell)
    (hf : ∀ c, (f c).declaration = c.declaration) :
    SameRegistry s { s with heap := s.heap.update h f } := by
  refine ⟨rfl, rfl, rfl, rfl, fun i => ?_⟩
  show (s.heap.update h f)[i]?.map Cell.declaration = _
  rw [Heap.getElem?_update]
  by_cases hi : h = i
  · rw [if_pos hi]
    cases s.heap[i]? with
    | none => rfl
    | some c => simp [hf]
  · rw [if_neg hi]

theorem SameRegistry.findOption_eq {s s' : State} (hs : SameRegistry s s') (key : Str) :
    findOption s' key = findOption s key := by
  apply findOption_congr s s' key hs.1
  intro i
  have := congrArg (Option.map KeyAdapter.keys) (hs.2.2.2.2 i)
  simpa [Option.map_map, Function.comp_def, Cell.keys_declaration] using this

theorem SameRegistry.hasArgument_eq {s s' : State} (hs : SameRegistry s s') (h : Handle) :
    s'.heap.hasArgument h = s.heap.hasArgument h := by
  have := congrArg (Option.map KeyAdapter.hasArgument) (hs.2.2.2.2 h)
  simp only [Option.map_map, Function.comp_def, Cell.hasArgument_declaration] at this
  unfold Heap.hasArgument
  cases h1 : s'.heap[h]? <;> cases h2 : s.heap[h]? <;> simp_all

theorem positionalFallback_sameRegistry (s : State) (a : Str) (rest : List Str) :
    SameRegistry s (positionalFallback s a rest).state := by
  unfold positionalFallback
  split
  · rename_i h _
    split
    · exact SameRegistry.update s _ _ (Cell.declaration_argumentAddValue _)
    · exact SameRegistry.trans
        (SameRegistry.update s h (ArgumentAdapter.addValue a)
          (Cell.declaration_argumentAddValue a))
        ⟨rfl, rfl, rfl, rfl, fun _ => rfl⟩
  · split
    · exact ⟨rfl, rfl, rfl, rfl, fun _ => rfl⟩
    · exact SameRegistry.refl s

/-- A round of the loop leaves the registry alone, however it ends. -/
theorem step_sameRegistry (s : State) (a : Str) (rest : List Str) :
    SameRegistry s (step s a rest).state := by
  unfold step
  split
  · split
    · split
      · exact SameRegistry.refl s
      · exact SameRegistry.update s _ _ (Cell.declaration_keyAddValue _)
    · exact SameRegistry.update s _ _ Cell.declaration_raise
  · split
    · split
      · exact SameRegistry.update s _ _ (Cell.declaration_keyAddValue _)
      · exact SameRegistry.refl s
    · split
      · exact SameRegistry.refl s
      · exact positionalFallback_sameRegistry s a rest

/-- A run of `parse` leaves the registry alone, however it ends. -/
theorem parseLoop_sameRegistry (fuel : Nat) (s : State) (args : List Str) :
    SameRegistry s (parseLoop fuel s args).state := by
  induction fuel generalizing s args with
  | zero =>
    cases args with
    | nil => exact SameRegistry.refl s
    | cons a rest => exact SameRegistry.refl s
  | succ fuel ih =>
    cases args with
    | nil => exact SameRegistry.refl s
    | cons a rest =>
      have hstep := step_sameRegistry s a rest
      unfold parseLoop
      cases hres : step s a rest with
      | next s' rest' =>
        rw [hres] at hstep
        exact SameRegistry.trans hstep (ih s' rest')
      | threw e s' =>
        rw [hres] at hstep
        exact hstep
      | undefined s' =>
        rw [hres] at hstep
        exact hstep

/-! ## C4: a key of a value-accepting option at the end of the list -/

theorem positionalFallback_rest (s : State) (a : Str) (rest : List Str) :
    positionalFallback s a rest = .next (positionalFallback s a []).state (a :: rest) := by
  unfold positionalFallback
  split
  · split <;> rfl
  · split <;> rfl

/-- A round that ends normally does the same when more tokens follow. -/
theorem step_next_append (s s1 : State) (a : Str) (rest r1 suf : List Str)
    (h : step s a rest = .next s1 r1) :
    step s a (rest ++ suf) = .next s1 (r1 ++ suf) := by
  unfold step at h ⊢
  cases hf : findOption s a with
  | some hd =>
    rw [hf] at h
    simp only at h ⊢
    by_cases harg : s.heap.hasArgument hd = true
    · rw [if_pos harg] at h ⊢
      cases rest with
      | nil => exact StepResult.noConfusion h
      | cons v rest' =>
        simp only [List.cons_append]
        simp only [StepResult.next.injEq] at h ⊢
        exact ⟨h.1, by rw [h.2]⟩
    · rw [if_neg harg] at h ⊢
      simp only [StepResult.next.injEq] at h ⊢
      exact ⟨h.1, by rw [h.2]⟩
  | none =>
    rw [hf] at h
    simp only at h ⊢
    cases hk : keyValueOption s a with
    | some hv =>
      rw [hk] at h
      simp only at h ⊢
      by_cases harg : s.heap.hasArgument hv.1 = true
      · rw [if_pos harg] at h ⊢
        simp only [StepResult.next.injEq] at h ⊢
        exact ⟨h.1, by rw [h.2]⟩
      · rw [if_neg harg] at h
        exact StepResult.noConfusion h
    | none =>
      rw [hk] at h
      simp only at h ⊢
      cases hp : parsePack s.parser._config a with
      | noReturn =>
        rw [hp] at h
        exact StepResult.noConfusion h
      | nullopt =>
        rw [hp] at h
        simp only at h ⊢
        rw [positionalFallback_rest] at h ⊢
        simp only [StepResult.next.injEq] at h ⊢
        exact ⟨h.1, by rw [← h.2]; rfl⟩

/-- A run that returns, followed by one more token on which the round throws. -/
theorem parseLoop_append_threw (fuel : Nat) (s s' s'' : State) (pre : List Str)
    (k : Str) (e : Exception)
    (hpre : parseLoop fuel s pre = .done s') (hlast : step s' k [] = .threw e s'') :
    parseLoop (fuel + 1) s (pre ++ [k]) = .threw e s'' := by
  induction fuel generalizing s pre with
  | zero =>
    cases pre with
    | nil =>
      have hs : s = s' := by
        simpa [parseLoop] using hpre
      subst hs
      simp only [List.nil_append]
      unfold parseLoop
      rw [hlast]
    | cons a rest => exact Outcome.noConfusion hpre
  | succ fuel ih =>
    cases pre with
    | nil =>
      have hs : s = s' := by
        simpa [parseLoop] using hpre
      subst hs
      simp only [List.nil_append]
      unfold parseLoop
      rw [hlast]
    | cons a rest =>
      unfold parseLoop at hpre
      simp only [List.cons_append]
      cases hres : step s a rest with
      | next s1 r1 =>
        rw [hres] at hpre
        simp only at hpre
        have := ih s1 r1 hpre
        rw [parseLoop, step_next_append s s1 a rest r1 [k] hres]
        exact this
      | threw e1 s1 =>
        rw [hres] at hpre
        exact Outcome.noConfusion hpre
      | undefined s1 =>
        rw [hres] at hpre
        exact Outcome.noConfusion hpre

/-- An exact key of a value-accepting adapter with no token behind it: the
iterator is advanced to `args.end()` and then read. -/
theorem step_key_no_value (s : State) (a : Str) (h : Handle)
    (hfind : findOption s a = some h) (harg : s.heap.hasArgument h = true) :
    step s a [] = .undefined s := by
  unfold step
  rw [hfind]
  simp only [harg, if_true]

/-- C4, the code at `["-n"]`, with `-n` an `Option<int>` (registry of
examples/01_simple.cpp) and with `-n` a `MultiOption<int>`: the round advances
the iterator to `args.end()` and then builds the text of the error from
`*arg`, a read through the past-the-end iterator. No missing-value error that
names `-n` comes out of it; the run has no defined behaviour from there (the
stored values are untouched up to that point). -/
theorem parse_missing_value_undefined (fuel : Nat) :
    parse (fuel + 1) simpleExample ["-n".toList] = .undefined simpleExample ∧
      parse (fuel + 1) multiOptionExample ["-n".toList] = .undefined multiOptionExample ∧
      step simpleExample "-n".toList [] = .undefined simpleExample :=
  ⟨rfl, rfl, rfl⟩

/-! ## C5 and C6: requiredness and the empty token list -/

theorem Cell.keys_clearRequired (c : Cell) :
    KeyAdapter.keys c.clearRequired = KeyAdapter.keys c := by
  cases c <;> rfl

theorem Cell.hasArgument_clearRequired (c : Cell) :
    KeyAdapter.hasArgument c.clearRequired = KeyAdapter.hasArgument c := by
  cases c <;> rfl

theorem Cell.multi_clearRequired (c : Cell) :
    ArgumentAdapter.multi c.clearRequired = ArgumentAdapter.multi c := by
  cases c <;> rfl

theorem Cell.clearRequired_keyAddValue (v : Str) (c : Cell) :
    KeyAdapter.addValue v c.clearRequired = (KeyAdapter.addValue v c).clearRequired := by
  cases c <;> rfl

theorem Cell.clearRequired_raise (c : Cell) :
    KeyAdapter.raise c.clearRequired = (KeyAdapter.raise c).clearRequired := by
  cases c <;> rfl

theorem Cell.clearRequired_argumentAddValue (v : Str) (c : Cell) :
    ArgumentAdapter.addValue v c.clearRequired =
      (ArgumentAdapter.addValue v c).clearRequired := by
  cases c <;> rfl

theorem findOption_clearRequired (s : State) (key : Str) :
    findOption s.clearRequired key = findOption s key := by
  apply findOption_congr s s.clearRequired key rfl
  intro i
  show (s.heap.map Cell.clearRequired)[i]?.map KeyAdapter.keys = _
  rw [List.getElem?_map]
  cases s.heap[i]? with
  | none => rfl
  | some c => simp [Cell.keys_clearRequired]

theorem heap_hasArgument_clearRequired (s : State) (h : Handle) :
    s.clearRequired.heap.hasArgument h = s.heap.hasArgument h := by
  show Heap.hasArgument (s.heap.map Cell.clearRequired) h = _
  unfold Heap.hasArgument
  rw [List.getElem?_map]
  cases s.heap[h]? with
  | none => rfl
  | some c => simp [Cell.hasArgument_clearRequired]

theorem heap_multi_clearRequired (s : State) (h : Handle) :
    s.clearRequired.heap.multi h = s.heap.multi h := by
  show Heap.multi (s.heap.map Cell.clearRequired) h = _
  unfold Heap.multi
  rw [List.getElem?_map]
  cases s.heap[h]? with
  | none => rfl
  | some c => simp [Cell.multi_clearRequired]

theorem update_clearRequired (heap : Heap) (h : Handle) (f : Cell → Cell)
    (hf : ∀ c, f c.clearRequired = (f c).clearRequired) :
    Heap.update (heap.map Cell.clearRequired) h f =
      (heap.update h f).map Cell.clearRequired := by
  unfold Heap.update
  rw [List.getElem?_map]
  cases heap[h]? with
  | none => rfl
  | some c => simp [hf, List.map_set]

theorem keyValueOption_clearRequired (s : State) (a : Str) :
    keyValueOption s.clearRequired a = keyValueOption s a := by
  unfold keyValueOption
  show (match parseKeyValue s.parser._config a with
    | some pair => (findOption s.clearRequired pair.key).map fun h => (h, pair.value)
    | none => none) = _
  cases parseKeyValue s.parser._config a with
  | none => rfl
  | some pair => simp only [findOption_clearRequired]

theorem positionalFallback_clearRequired (s : State) (a : Str) (rest : List Str) :
    positionalFallback s.clearRequired a rest =
      (positionalFallback s a rest).mapState State.clearRequired := by
  unfold positionalFallback
  show (match s.parser._values[s.parser._position]? with
    | some h =>
      if s.clearRequired.heap.multi h then
        StepResult.next { s.clearRequired with
          heap := s.clearRequired.heap.update h (ArgumentAdapter.addValue a) } (a :: rest)
      else
        StepResult.next { heap := s.clearRequired.heap.update h (ArgumentAdapter.addValue a),
                          parser := { s.parser with _position := s.parser._position + 1 } }
          (a :: rest)
    | none =>
      if s.parser._collectLevtovers then
        StepResult.next { s.clearRequired with parser :=
          { s.parser with _leftovers := s.parser._leftovers ++ [a] } } (a :: rest)
      else StepResult.next s.clearRequired (a :: rest)) = _
  have hupd : s.clearRequired.heap = s.heap.map Cell.clearRequired := rfl
  cases s.parser._values[s.parser._position]? with
  | some h =>
    simp only [heap_multi_clearRequired]
    by_cases hm : s.heap.multi h = true
    · simp only [hm, if_true, hupd,
        update_clearRequired _ _ _ (Cell.clearRequired_argumentAddValue a)]
      rfl
    · simp only [hm, if_false, hupd,
        update_clearRequired _ _ _ (Cell.clearRequired_argumentAddValue a)]
      rfl
  | none =>
    simp only
    split <;> rfl

/-- A round of the loop does not read the required marks. -/
theorem step_clearRequired (s : State) (a : Str) (rest : List Str) :
    step s.clearRequired a rest = (step s a rest).mapState State.clearRequired := by
  unfold step
  rw [findOption_clearRequired, keyValueOption_clearRequired]
  have hcfg : s.clearRequired.parser = s.parser := rfl
  have hheap : s.clearRequired.heap = s.heap.map Cell.clearRequired := rfl
  cases findOption s a with
  | some h =>
    simp only [heap_hasArgument_clearRequired]
    split
    · cases rest with
      | nil => rfl
      | cons v rest' =>
        simp only [hheap, update_clearRequired _ _ _ (Cell.clearRequired_keyAddValue v)]
        rfl
    · simp only [hheap, update_clearRequired _ _ _ Cell.clearRequired_raise]
      rfl
  | none =>
    simp only
    cases keyValueOption s a with
    | some hv =>
      simp only [heap_hasArgument_clearRequired]
      split
      · simp only [hheap, update_clearRequired _ _ _ (Cell.clearRequired_keyAddValue hv.2)]
        rfl
      · rfl
    | none =>
      simp only [hcfg]
      cases parsePack s.parser._config a with
      | noReturn => rfl
      | nullopt => exact positionalFallback_clearRequired s a rest

/-- A run of `parse` does not read the required marks. -/
theorem parseLoop_clearRequired (fuel : Nat) (s : State) (args : List Str) :
    parseLoop fuel s.clearRequired args =
      (parseLoop fuel s args).mapState State.clearRequired := by
  induction fuel generalizing s args with
  | zero =>
    cases args <;> rfl
  | succ fuel ih =>
    cases args with
    | nil => rfl
    | cons a rest =>
      unfold parseLoop
      rw [step_clearRequired]
      cases step s a rest with
      | next s' rest' => exact ih s' rest'
      | threw e s' => rfl
      | undefined s' => rfl

/-- C5 as stated fails. In the registry of examples/01_simple.cpp `string` is
marked required; `parse` on the empty list and on `["--number", "5"]` returns
without any error although `string` has received no value. -/
theorem parse_required_counterexample :
    requiredAdapters simpleExample = [0] ∧
      parse 0 simpleExample [] = .done simpleExample ∧
      parse 1 simpleExample ["--number".toList, "5".toList] =
        .done { simpleExample with
          heap := simpleExample.heap.set 1 (.option Int intExtractor
            { keys := ["-n".toList, "--number".toList], value := 5 }) } := by
  refine ⟨rfl, rfl, rfl⟩

/-- C5, amended. `parse` validates no requiredness: a run on a registry and
the run on the same registry with every required mark taken away end in the
same way, with the same values; and on the empty token list `parse` returns
with the state untouched, whatever is marked required. -/
theorem parse_ignores_required (fuel : Nat) (s : State) (args : List Str) :
    parse fuel s.clearRequired args = (parse fuel s args).mapState State.clearRequired ∧
      parse fuel s [] = .done s :=
  ⟨parseLoop_clearRequired fuel s args, parseLoop_nil fuel s⟩

/-- C6. In a registry where no adapter is marked required, `parse` on the empty
token list returns without an exception and the whole state (every flag,
count, value, accumulated sequence, the cursor and the leftovers) is as it
was. -/
theorem parse_empty_unchanged (fuel : Nat) (s : State)
    (_hnone : requiredAdapters s = []) :
    parse fuel s [] = .done s :=
  parseLoop_nil fuel s

/-- C6 at `flagsExample`, where nothing is required. -/
theorem parse_empty_unchanged_witness : parse 0 flagsExample [] = .done flagsExample :=
  parse_empty_unchanged 0 flagsExample rfl

/-! ## C7: the positional cursor -/

/-- A round that changes neither the state nor the iterator repeats for ever. -/
theorem parseLoop_stuck (s : State) (a : Str) (rest : List Str)
    (hstep : step s a rest = .next s (a :: rest)) (fuel : Nat) :
    parseLoop fuel s (a :: rest) = .running s (a :: rest) := by
  induction fuel with
  | zero => rfl
  | succ fuel ih =>
    unfold parseLoop
    rw [hstep]
    exact ih

/-- C7, the code at `["a", "b"]` and at `["a"]` with `P1` and `P2`: the
positional block does not advance the iterator, so the token `a` is given to
`P1`, then again to `P2`, then the leftover block repeats on `a` for ever.
Whatever the fuel, the run has not returned, `P2` holds `read("a")` and the
token `b` has not been reached. -/
theorem parse_positional_cursor_stuck (fuel : Nat) :
    parse (fuel + 2) positionalExample ["a".toList, "b".toList] =
        .running
          { heap := [.value Str stringExtractor { value := "a".toList },
                     .value Str stringExtractor { value := "a".toList }],
            parser := { _arguments := [0, 1], _position := 2, _collectLevtovers := false,
                        _leftovers := [] } }
          ["a".toList, "b".toList] ∧
      parse (fuel + 2) positionalExample ["a".toList] =
        .running
          { heap := [.value Str stringExtractor { value := "a".toList },
                     .value Str stringExtractor { value := "a".toList }],
            parser := { _arguments := [0, 1], _position := 2, _collectLevtovers := false,
                        _leftovers := [] } }
          ["a".toList] := by
  constructor
  · show parseLoop (fuel + 1 + 1) positionalExample ["a".toList, "b".toList] = _
    have h1 : parseLoop (fuel + 1 + 1) positionalExample ["a".toList, "b".toList] =
        parseLoop fuel
          { heap := [.value Str stringExtractor { value := "a".toList },
                     .value Str stringExtractor { value := "a".toList }],
            parser := { _arguments := [0, 1], _position := 2, _collectLevtovers := false,
                        _leftovers := [] } }
          ["a".toList, "b".toList] := rfl
    rw [h1]
    apply parseLoop_stuck
    rfl
  · show parseLoop (fuel + 1 + 1) positionalExample ["a".toList] = _
    have h1 : parseLoop (fuel + 1 + 1) positionalExample ["a".toList] =
        parseLoop fuel
          { heap := [.value Str stringExtractor { value := "a".toList },
                     .value Str stringExtractor { value := "a".toList }],
            parser := { _arguments := [0, 1], _position := 2, _collectLevtovers := false,
                        _leftovers := [] } }
          ["a".toList] := rfl
    rw [h1]
    apply parseLoop_stuck
    rfl

/-! ## C8: an option that no token resolves keeps its value -/

theorem keyValueOption_some (s : State) (a : Str) (hv : Handle × Str)
    (h : keyValueOption s a = some hv) :
    ∃ pair, parseKeyValue s.parser._config a = some pair ∧
      findOption s pair.key = some hv.1 ∧ pair.value = hv.2 := by
  unfold keyValueOption at h
  cases hp : parseKeyValue s.parser._config a with
  | none =>
    rw [hp] at h
    exact Option.noConfusion h
  | some pair =>
    rw [hp] at h
    simp only at h
    cases hf : findOption s pair.key with
    | none =>
      rw [hf] at h
      exact Option.noConfusion h
    | some h' =>
      rw [hf] at h
      simp only [Option.map_some', Option.some.injEq] at h
      subst h
      exact ⟨pair, rfl, hf, rfl⟩

/-- The tokens left after a round are among the tokens it started with. -/
theorem step_next_mem (s s' : State) (a : Str) (rest rest' : List Str)
    (h : step s a rest = .next s' rest') : ∀ t ∈ rest', t ∈ a :: rest := by
  unfold step at h
  cases hf : findOption s a with
  | some hd =>
    rw [hf] at h
    simp only at h
    by_cases harg : s.heap.hasArgument hd = true
    · rw [if_pos harg] at h
      cases rest with
      | nil => exact StepResult.noConfusion h
      | cons v r =>
        simp only [StepResult.next.injEq] at h
        intro t ht
        rw [← h.2] at ht
        exact List.mem_cons_of_mem _ (List.mem_cons_of_mem _ ht)
    · rw [if_neg harg] at h
      simp only [StepResult.next.injEq] at h
      intro t ht
      rw [← h.2] at ht
      exact List.mem_cons_of_mem _ ht
  | none =>
    rw [hf] at h
    simp only at h
    cases hk : keyValueOption s a with
    | some hv =>
      rw [hk] at h
      simp only at h
      by_cases harg : s.heap.hasArgument hv.1 = true
      · rw [if_pos harg] at h
        simp only [StepResult.next.injEq] at h
        intro t ht
        rw [← h.2] at ht
        exact List.mem_cons_of_mem _ ht
      · rw [if_neg harg] at h
        exact StepResult.noConfusion h
    | none =>
      rw [hk] at h
      simp only at h
      cases hp : parsePack s.parser._config a with
      | noReturn =>
        rw [hp] at h
        exact StepResult.noConfusion h
      | nullopt =>
        rw [hp] at h
        simp only at h
        rw [positionalFallback_rest] at h
        simp only [StepResult.next.injEq] at h
        intro t ht
        rw [← h.2] at ht
        exact ht

theorem positionalFallback_frame (s : State) (a : Str) (rest : List Str) (h : Handle)
    (c : Cell) (hcell : s.heap[h]? = some c) (hc : ArgumentAdapter.addValue a c = c) :
    (positionalFallback s a rest).state.heap[h]? = some c := by
  have hupd : ∀ h' : Handle, (s.heap.update h' (ArgumentAdapter.addValue a))[h]? = some c := by
    intro h'
    rw [Heap.getElem?_update]
    by_cases hh : h' = h
    · rw [if_pos hh, hcell]
      simp [hc]
    · rw [if_neg hh, hcell]
  unfold positionalFallback
  split
  · split
    · exact hupd _
    · exact hupd _
  · split
    · exact hcell
    · exact hcell

/-- A round leaves alone an `Option<T>` that its token does not resolve to,
neither as an exact key nor as the left part of a key-value pair. -/
theorem step_frame_option (s : State) (a : Str) (rest : List Str) (h : Handle)
    (T : Type) (io : Extractor T) (d : OptionData T)
    (hcell : s.heap[h]? = some (.option T io d))
    (hexact : findOption s a ≠ some h)
    (hsplit : ∀ pair, parseKeyValue s.parser._config a = some pair →
      findOption s pair.key ≠ some h) :
    (step s a rest).state.heap[h]? = some (.option T io d) := by
  unfold step
  cases hf : findOption s a with
  | some hd =>
    have hne : hd ≠ h := by
      intro e
      rw [hf, e] at hexact
      exact hexact rfl
    simp only
    split
    · cases rest with
      | nil => exact hcell
      | cons v r =>
        show (s.heap.update hd (KeyAdapter.addValue v))[h]? = _
        rw [Heap.getElem?_update_ne _ _ _ _ hne]
        exact hcell
    · show (s.heap.update hd KeyAdapter.raise)[h]? = _
      rw [Heap.getElem?_update_ne _ _ _ _ hne]
      exact hcell
  | none =>
    simp only
    cases hk : keyValueOption s a with
    | some hv =>
      rcases keyValueOption_some s a hv hk with ⟨pair, hp, hfind, _⟩
      have hne : hv.1 ≠ h := by
        intro e
        rw [e] at hfind
        exact hsplit pair hp hfind
      simp only
      split
      · show (s.heap.update hv.1 (KeyAdapter.addValue hv.2))[h]? = _
        rw [Heap.getElem?_update_ne _ _ _ _ hne]
        exact hcell
      · exact hcell
    | none =>
      simp only
      cases parsePack s.parser._config a with
      | noReturn => exact hcell
      | nullopt => exact positionalFallback_frame s a rest h _ hcell rfl

/-- C8. For an `Option<T>` and a token list none of whose tokens resolves to
it, neither as an exact key nor as the left part of a key-value pair, the
record of the option in the state `parse` ends in (however it ends, also when
it returns) is the one it started with: its value is still the one
`defaultValue` stored, or `T{}`. -/
theorem parse_keeps_unresolved_option (fuel : Nat) (s : State) (args : List Str)
    (h : Handle) (T : Type) (io : Extractor T) (d : OptionData T)
    (hcell : s.heap[h]? = some (.option T io d))
    (hexact : ∀ t ∈ args, findOption s t ≠ some h)
    (hsplit : ∀ t ∈ args, ∀ pair, parseKeyValue s.parser._config t = some pair →
      findOption s pair.key ≠ some h) :
    (parse fuel s args).state.heap[h]? = some (.option T io d) := by
  unfold parse
  induction fuel generalizing s args with
  | zero =>
    cases args with
    | nil => exact hcell
    | cons a rest => exact hcell
  | succ fuel ih =>
    cases args with
    | nil => exact hcell
    | cons a rest =>
      have hframe := step_frame_option s a rest h T io d hcell
        (hexact a (List.mem_cons_self _ _)) (hsplit a (List.mem_cons_self _ _))
      have hsame := step_sameRegistry s a rest
      unfold parseLoop
      cases hres : step s a rest with
      | next s' rest' =>
        rw [hres] at hframe hsame
        have hsame : SameRegistry s s' := hsame
        have hframe : s'.heap[h]? = some (.option T io d) := hframe
        have hmem := step_next_mem s s' a rest rest' hres
        apply ih s' rest' hframe
        · intro t ht
          rw [SameRegistry.findOption_eq hsame]
          exact hexact t (hmem t ht)
        · intro t ht pair hp
          rw [SameRegistry.findOption_eq hsame]
          have hcfg : s'.parser._config = s.parser._config := hsame.2.2.1
          rw [hcfg] at hp
          exact hsplit t (hmem t ht) pair hp
      | threw e s' =>
        rw [hres] at hframe
        exact hframe
      | undefined s' =>
        rw [hres] at hframe
        exact hframe

/-- C8 at the registry of examples/01_simple.cpp: on `-s hi` the option
`number` keeps its default 3, `string` holds `"hi"` and `parse` returns. -/
theorem parse_keeps_unresolved_option_witness :
    (parse 1 simpleExample ["-s".toList, "hi".toList]).state.heap[1]? =
        some (.option Int intExtractor
          { keys := ["-n".toList, "--number".toList],
            value := (3 : Int) }) ∧
      parse 1 simpleExample ["-s".toList, "hi".toList] =
        .done { simpleExample with
          heap := simpleExample.heap.set 0 (.option Str stringExtractor
            { keys := ["-s".toList, "--string".toList], required := true,
              value := "hi".toList }) } :=
  ⟨parse_keeps_unresolved_option 1 simpleExample ["-s".toList, "hi".toList] 1 Int
      intExtractor { keys := ["-n".toList, "--number".toList], value := 3 } rfl
      (by decide) (by
        intro t ht pair hp
        simp only [List.mem_cons, List.mem_singleton, List.not_mem_nil, or_false] at ht
        rcases ht with rfl | rfl
        · have hnone : parseKeyValue simpleExample.parser._config "-s".toList = none := rfl
          rw [hnone] at hp
          exact Option.noConfusion hp
        · have hnone : parseKeyValue simpleExample.parser._config "hi".toList = none := rfl
          rw [hnone] at hp
          exact Option.noConfusion hp),
    rfl⟩

/-! ## C9: raising a flag and a counted flag -/

/-- C9, the code at `["-v", "-v"]` with a `MultiFlag` `-v` that starts at 0:
`MultiFlagAdapter::raise` assigns `true`, that is 1, to the count, so after
two occurrences the count is 1 and not 2 (and stays 1 after three). On a
`Flag` the same assignment sets the boolean to `true`. -/
theorem parse_multiFlag_count_one :
    parse 2 flagsExample ["-v".toList, "-v".toList] =
        .done { flagsExample with
          heap := [.flag { keys := ["-f".toList] },
                   .multiFlag { keys := ["-v".toList], count := 1 }] } ∧
      parse 3 flagsExample ["-v".toList, "-v".toList, "-v".toList] =
        .done { flagsExample with
          heap := [.flag { keys := ["-f".toList] },
                   .multiFlag { keys := ["-v".toList], count := 1 }] } ∧
      parse 1 flagsExample ["-f".toList] =
        .done { flagsExample with
          heap := [.flag { keys := ["-f".toList], value := true },
                   .multiFlag { keys := ["-v".toList] }] } := by
  refine ⟨rfl, rfl, rfl⟩

/-! ## C10: a value given to a flag -/

/-- C10 as stated fails. At `flagsExample` the tokens `-f=1` and `-v=2` make
`parse` throw, the flags untouched, but the exception is the same for both,
with the fixed text "option does not accept values": neither the key nor the
value can be read off it. -/
theorem parse_flag_value_counterexample :
    parse 1 flagsExample ["-f=1".toList] =
        .threw .optionDoesNotAcceptValues flagsExample ∧
      parse 1 flagsExample ["-v=2".toList] =
        .threw .optionDoesNotAcceptValues flagsExample ∧
      Exception.optionDoesNotAcceptValues.what =
        some "option does not accept values".toList ∧
      ¬ ∃ payload : Exception → Str × Str,
        (∀ e s', parse 1 flagsExample ["-f=1".toList] = .threw e s' →
          payload e = ("-f".toList, "1".toList)) ∧
        (∀ e s', parse 1 flagsExample ["-v=2".toList] = .threw e s' →
          payload e = ("-v".toList, "2".toList)) := by
  refine ⟨rfl, rfl, rfl, ?_⟩
  rintro ⟨payload, h1, h2⟩
  have e1 := h1 .optionDoesNotAcceptValues flagsExample rfl
  have e2 := h2 .optionDoesNotAcceptValues flagsExample rfl
  rw [e1] at e2
  exact absurd e2 (by decide)

/-- C10, amended. When the loop meets a token that is no registered key, that
`parseKeyValue` splits, and whose left part resolves to a `Flag` or a
`MultiFlag`, `parse` throws the `std::runtime_error` with the fixed text
"option does not accept values", which carries neither key nor value; the
state is the one the round started in, so the flag has not been raised. -/
theorem parse_flag_value_throws (s : State) (t : Str) (rest : List Str)
    (pair : KeyValuePair) (h : Handle) (c : Cell) (fuel : Nat)
    (hnokey : findOption s t = none)
    (hpair : parseKeyValue s.parser._config t = some pair)
    (hfind : findOption s pair.key = some h)
    (hcell : s.heap[h]? = some c)
    (hflag : (∃ d, c = .flag d) ∨ (∃ d, c = .multiFlag d)) :
    parse (fuel + 1) s (t :: rest) = .threw .optionDoesNotAcceptValues s ∧
      Exception.optionDoesNotAcceptValues.what =
        some "option does not accept values".toList := by
  have harg : s.heap.hasArgument h = false := by
    rw [Heap.hasArgument_of_cell _ _ _ hcell]
    rcases hflag with ⟨d, rfl⟩ | ⟨d, rfl⟩ <;> rfl
  refine ⟨?_, rfl⟩
  show parseLoop (fuel + 1) s (t :: rest) = _
  unfold parseLoop
  rw [step_pair_flag s t rest pair h hnokey hpair hfind harg]

/-- C10, amended, at `flagsExample`: `-v=2` followed by `-f`. -/
theorem parse_flag_value_throws_witness :
    parse 1 flagsExample ["-v=2".toList, "-f".toList] =
        .threw .optionDoesNotAcceptValues flagsExample ∧
      Exception.optionDoesNotAcceptValues.what =
        some "option does not accept values".toList :=
  parse_flag_value_throws flagsExample "-v=2".toList ["-f".toList]
    { key := "-v".toList, value := "2".toList } 1 (.multiFlag { keys := ["-v".toList] }) 0
    rfl rfl rfl rfl (Or.inr ⟨_, rfl⟩)

/-! ## C11: packed short flags -/

/-- C11, the code at `["-ab"]` with the flags `-a` and `-b`: the token is no
key and gives no key-value pair, `parsePack` passes its two guards, runs its
empty loop and ends without a `return`; no flag is raised and the run has no
defined continuation. -/
theorem parse_pack_raises_nothing (fuel : Nat) :
    parsePack packExample.parser._config "-ab".toList = .noReturn ∧
      parse (fuel + 1) packExample ["-ab".toList] = .undefined packExample ∧
      packExample.heap = [.flag { keys := ["-a".toList], value := false },
                          .flag { keys := ["-b".toList], value := false }] :=
  ⟨rfl, rfl, rfl⟩

/-! ## C12: termination -/

theorem SameRegistry.keyValueOption_eq {s s' : State} (hs : SameRegistry s s') (a : Str) :
    keyValueOption s' a = keyValueOption s a := by
  unfold keyValueOption
  rw [hs.2.2.1]
  cases parseKeyValue s.parser._config a with
  | none => rfl
  | some pair => simp only [hs.findOption_eq]

/-- A token that is no key, gives no key-value pair with a known key and is no
pack is never passed over: every round ends with the iterator where it was, so
the run is still on that token whatever the fuel. -/
theorem parseLoop_fallback_runs (s : State) (a : Str) (rest : List Str)
    (hnone : findOption s a = none) (hkv : keyValueOption s a = none)
    (hpack : parsePack s.parser._config a = .nullopt) (fuel : Nat) :
    ∃ s', parseLoop fuel s (a :: rest) = .running s' (a :: rest) := by
  induction fuel generalizing s with
  | zero => exact ⟨s, rfl⟩
  | succ fuel ih =>
    have hstep : step s a rest = .next (positionalFallback s a []).state (a :: rest) := by
      rw [step_fallback s a rest hnone hkv hpack, positionalFallback_rest]
    have hsame : SameRegistry s (positionalFallback s a []).state :=
      positionalFallback_sameRegistry s a []
    have h1 : findOption (positionalFallback s a []).state a = none := by
      rw [hsame.findOption_eq]
      exact hnone
    have h2 : keyValueOption (positionalFallback s a []).state a = none := by
      rw [hsame.keyValueOption_eq]
      exact hkv
    have h3 : parsePack (positionalFallback s a []).state.parser._config a = .nullopt := by
      rw [hsame.2.2.1]
      exact hpack
    rcases ih _ h1 h2 h3 with ⟨s', hs'⟩
    refine ⟨s', ?_⟩
    unfold parseLoop
    rw [hstep]
    exact hs'

/-- C12, the code at `["a", "b"]` with no declaration and overflow collection
off: the round on `a` takes the leftover block and ends with the iterator
still on `a`, so no round consumes a token and, whatever the fuel, `parse` has
not returned. -/
theorem parse_does_not_terminate (fuel : Nat) :
    step (emptyExample false) "a".toList ["b".toList] =
        .next (emptyExample false) ["a".toList, "b".toList] ∧
      parse fuel (emptyExample false) ["a".toList, "b".toList] =
        .running (emptyExample false) ["a".toList, "b".toList] :=
  ⟨rfl, parseLoop_stuck (emptyExample false) "a".toList ["b".toList] rfl fuel⟩

/-! ## C13: a token nothing takes -/

/-- C13, the code at `["x"]` with no declaration. With overflow collection off
the leftover block does nothing (its error is a `TODO`): no exception is
thrown and the run repeats on `x` for ever. With overflow collection on the
token is appended to `_leftovers` once per round, also for ever: after `fuel`
rounds there are `fuel` copies of it. -/
theorem parse_unexpected_argument_unreported (fuel : Nat) :
    parse fuel (emptyExample false) ["x".toList] =
        .running (emptyExample false) ["x".toList] ∧
      parse fuel (emptyExample true) ["x".toList] =
        .running
          { heap := [],
            parser := { _position := 0, _collectLevtovers := true,
                        _leftovers := List.replicate fuel "x".toList } }
          ["x".toList] := by
  refine ⟨parseLoop_stuck (emptyExample false) "x".toList [] rfl fuel, ?_⟩
  have hgen : ∀ (n m : Nat),
      parseLoop n
          { heap := [],
            parser := { _position := 0, _collectLevtovers := true,
                        _leftovers := List.replicate m "x".toList } }
          ["x".toList] =
        .running
          { heap := [],
            parser := { _position := 0, _collectLevtovers := true,
                        _leftovers := List.replicate (m + n) "x".toList } }
          ["x".toList] := by
    intro n
    induction n with
    | zero => intro m; rfl
    | succ n ih =>
      intro m
      have hstep : step
          { heap := [],
            parser := { _position := 0, _collectLevtovers := true,
                        _leftovers := List.replicate m "x".toList } }
          "x".toList [] =
          .next
            { heap := [],
              parser := { _position := 0, _collectLevtovers := true,
                          _leftovers := List.replicate (m + 1) "x".toList } }
            ["x".toList] := by
        rw [List.replicate_succ']
        rfl
      unfold parseLoop
      rw [hstep]
      simp only
      rw [ih (m + 1)]
      have : m + 1 + n = m + (n + 1) := by omega
      rw [this]
  have := hgen fuel 0
  simpa using this

/-! ## C14: one exception, from the first round that fails -/

/-- A run that returns, followed by a token on which the round throws, whatever
comes behind that token. -/
theorem parseLoop_append_threw_rest (fuel : Nat) (s s' s'' : State) (pre : List Str)
    (k : Str) (rest : List Str) (e : Exception)
    (hpre : parseLoop fuel s pre = .done s') (hlast : step s' k rest = .threw e s'') :
    parseLoop (fuel + 1) s (pre ++ k :: rest) = .threw e s'' := by
  induction fuel generalizing s pre with
  | zero =>
    cases pre with
    | nil =>
      have hs : s = s' := by
        simpa [parseLoop] using hpre
      subst hs
      simp only [List.nil_append]
      unfold parseLoop
      rw [hlast]
    | cons a r => exact Outcome.noConfusion hpre
  | succ fuel ih =>
    cases pre with
    | nil =>
      have hs : s = s' := by
        simpa [parseLoop] using hpre
      subst hs
      simp only [List.nil_append]
      unfold parseLoop
      rw [hlast]
    | cons a r =>
      unfold parseLoop at hpre
      simp only [List.cons_append]
      cases hres : step s a r with
      | next s1 r1 =>
        rw [hres] at hpre
        simp only at hpre
        have := ih s1 r1 hpre
        rw [parseLoop, step_next_append s s1 a r r1 (k :: rest) hres]
        exact this
      | threw e1 s1 =>
        rw [hres] at hpre
        exact Outcome.noConfusion hpre
      | undefined s1 =>
        rw [hres] at hpre
        exact Outcome.noConfusion hpre

/-- C14 as stated fails. At `flagsExample` the list `["-f=1", "-v=2"]` holds two
tokens that each give a value to a flag. `parse` throws on the first and ends
there: the outcome is the one exception of `["-f=1"]` alone, and the same with
any other token behind it, so the second error is never met. -/
theorem parse_errors_counterexample :
    parse 2 flagsExample ["-f=1".toList, "-v=2".toList] =
        .threw .optionDoesNotAcceptValues flagsExample ∧
      parse 2 flagsExample ["-f=1".toList] =
        .threw .optionDoesNotAcceptValues flagsExample ∧
      parse 2 flagsExample ["-f=1".toList, "-v".toList] =
        .threw .optionDoesNotAcceptValues flagsExample ∧
      parse 2 flagsExample ["-v=2".toList] =
        .threw .optionDoesNotAcceptValues flagsExample := by
  refine ⟨rfl, rfl, rfl, rfl⟩

/-- C14, amended. Errors are first-only: when the loop has passed over the
tokens `pre` and then meets a token that gives a value to a `Flag` or a
`MultiFlag`, `parse` throws there, in the state the loop had reached, and the
outcome is the same whatever tokens `rest` follow: they are not processed and
no error of theirs is reported. -/
theorem parse_stops_at_first_error (s s' : State) (pre rest : List Str) (t : Str)
    (pair : KeyValuePair) (h : Handle) (c : Cell) (fuel : Nat)
    (hpre : parse fuel s pre = .done s')
    (hnokey : findOption s t = none)
    (hpair : parseKeyValue s.parser._config t = some pair)
    (hfind : findOption s pair.key = some h)
    (hcell : s.heap[h]? = some c)
    (hflag : (∃ d, c = .flag d) ∨ (∃ d, c = .multiFlag d)) :
    parse (fuel + 1) s (pre ++ t :: rest) = .threw .optionDoesNotAcceptValues s' := by
  have hsame : SameRegistry s s' := by
    have := parseLoop_sameRegistry fuel s pre
    unfold parse at hpre
    rw [hpre] at this
    exact this
  have harg : s.heap.hasArgument h = false := by
    rw [Heap.hasArgument_of_cell _ _ _ hcell]
    rcases hflag with ⟨d, rfl⟩ | ⟨d, rfl⟩ <;> rfl
  have hnokey' : findOption s' t = none := by
    rw [hsame.findOption_eq]
    exact hnokey
  have hpair' : parseKeyValue s'.parser._config t = some pair := by
    rw [hsame.2.2.1]
    exact hpair
  have hfind' : findOption s' pair.key = some h := by
    rw [hsame.findOption_eq]
    exact hfind
  have harg' : s'.heap.hasArgument h = false := by
    rw [hsame.hasArgument_eq]
    exact harg
  exact parseLoop_append_threw_rest fuel s s' s' pre t rest _ hpre
    (step_pair_flag s' t rest pair h hnokey' hpair' hfind' harg')

/-- C14, amended, at `flagsExample`: after `-v`, the token `-f=1` throws and
`-v=2` behind it is not met. -/
theorem parse_stops_at_first_error_witness :
    parse 2 flagsExample (["-v".toList] ++ "-f=1".toList :: ["-v=2".toList]) =
      .threw .optionDoesNotAcceptValues
        { flagsExample with
          heap := [.flag { keys := ["-f".toList] },
                   .multiFlag { keys := ["-v".toList], count := 1 }] } :=
  parse_stops_at_first_error flagsExample _ ["-v".toList] ["-v=2".toList] "-f=1".toList
    { key := "-f".toList, value := "1".toList } 0 (.flag { keys := ["-f".toList] }) 1
    rfl rfl rfl rfl rfl (Or.inl ⟨_, rfl⟩)

/-! ## C15: the caller's handle and the adapter share the record -/

theorem Heap.update_append_last (heap : Heap) (c : Cell) (f : Cell → Cell) :
    Heap.update (heap ++ [c]) heap.length f = heap ++ [f c] := by
  unfold Heap.update
  rw [List.getElem?_concat_length]
  simp only
  rw [List.set_append_right _ _ (Nat.le_refl _)]
  simp

/-- C15. A declaration made by `Parser::option<T>()` and completed through the
returned handle after the attachment (keys, required mark, default): the
record the handle reads has them, the adapter reports them (`isRequired()`,
resolution of each key `k` of the new key list by `findOption`), and after
`parse` on `[k, v]` the handle reads the value `read(v)` that the adapter
wrote. -/
theorem option_handle_shares_record (s : State) (T : Type) (io : Extractor T)
    (keys0 keys : List Str) (value : T) (k v : Str) (fuel : Nat) (hk : k ∈ keys) :
    OptionHandle.deref (declareThroughHandle s T io keys0 keys value).1
        (declareThroughHandle s T io keys0 keys value).2 =
      some (.option T io { keys := keys, required := true, value := value }) ∧
    findOption (declareThroughHandle s T io keys0 keys value).1 k =
      some (declareThroughHandle s T io keys0 keys value).2 ∧
    (∃ c, (declareThroughHandle s T io keys0 keys value).1.heap[
        (declareThroughHandle s T io keys0 keys value).2]? = some c ∧
      KeyAdapter.isRequired c = true) ∧
    ∃ s', parse (fuel + 1) (declareThroughHandle s T io keys0 keys value).1 [k, v] =
        .done s' ∧
      OptionHandle.deref s' (declareThroughHandle s T io keys0 keys value).2 =
        some (.option T io { keys := keys, required := true, value := read io v }) := by
  have hstate : (declareThroughHandle s T io keys0 keys value).1 =
      { heap := s.heap ++ [.option T io { keys := keys, required := true, value := value }],
        parser := s.parser.attach s.heap.length } := by
    unfold declareThroughHandle OptionHandle.defaultValue OptionHandle.markRequired
      OptionHandle.keys Parser.option
    simp only [Heap.update_append_last]
    rfl
  have hhandle : (declareThroughHandle s T io keys0 keys value).2 = s.heap.length := rfl
  rw [hstate, hhandle]
  have hcell : (s.heap ++ [Cell.option T io
      { keys := keys, required := true, value := value }])[s.heap.length]? =
      some (.option T io { keys := keys, required := true, value := value }) :=
    List.getElem?_concat_length _ _
  have hfind : findOption
      { heap := s.heap ++ [.option T io { keys := keys, required := true, value := value }],
        parser := s.parser.attach s.heap.length } k = some s.heap.length := by
    rw [findOption_eq_some_iff]
    refine ⟨s.parser._options, [], rfl, ?_, by simp⟩
    rw [Heap.hasKey_iff]
    exact ⟨_, hcell, hk⟩
  refine ⟨hcell, hfind, ⟨_, hcell, rfl⟩, ?_⟩
  have harg : Heap.hasArgument (s.heap ++ [Cell.option T io
      { keys := keys, required := true, value := value }]) s.heap.length = true := by
    rw [Heap.hasArgument_of_cell _ _ _ hcell]
    rfl
  refine ⟨State.mk
    (Heap.update
      (s.heap ++ [Cell.option T io { keys := keys, required := true, value := value }])
      s.heap.length (KeyAdapter.addValue v))
    (s.parser.attach s.heap.length), ?_, ?_⟩
  · show parseLoop (fuel + 1) _ [k, v] = _
    unfold parseLoop
    rw [step_key_value _ k v [] s.heap.length hfind harg]
    simp only [parseLoop_nil]
  · show (Heap.update (s.heap ++ [Cell.option T io
      { keys := keys, required := true, value := value }]) s.heap.length
      (KeyAdapter.addValue v))[s.heap.length]? = _
    rw [Heap.update_append_last, List.getElem?_concat_length]
    rfl

/-- C15 at the declaration of `string` in examples/01_simple.cpp, with the
default `"none"`: after `-s hi` the handle reads `"hi"`. -/
theorem option_handle_shares_record_witness :
    OptionHandle.deref
        (declareThroughHandle (emptyExample false) Str stringExtractor []
          ["-s".toList, "--string".toList] "none".toList).1 0 =
      some (.option Str stringExtractor
        { keys := ["-s".toList, "--string".toList], required := true,
          value := "none".toList }) ∧
    ∃ s', parse 1
        (declareThroughHandle (emptyExample false) Str stringExtractor []
          ["-s".toList, "--string".toList] "none".toList).1
        ["-s".toList, "hi".toList] = .done s' ∧
      OptionHandle.deref s' 0 =
        some (.option Str stringExtractor
          { keys := ["-s".toList, "--string".toList], required := true,
            value := "hi".toList }) :=
  ⟨(option_handle_shares_record (emptyExample false) Str stringExtractor []
      ["-s".toList, "--string".toList] "none".toList "-s".toList "hi".toList 0
      (by decide)).1,
    (option_handle_shares_record (emptyExample false) Str stringExtractor []
      ["-s".toList, "--string".toList] "none".toList "-s".toList "hi".toList 0
      (by decide)).2.2.2⟩

/-! ## C16: where the key-value pair is split -/

/-- C17. With key-value syntax enabled and separator `=`, for an
`Option<std::string>` that the key `k` resolves to, where `k` has no `=` and
the token `k=` is no registered key, `parse` on `[k=]` returns without an
exception and the option holds the empty string, whatever it held before;
nothing else changes. -/
theorem parse_empty_right_part (s : State) (d : OptionData Str) (h : Handle) (k : Str)
    (fuel : Nat)
    (hkv : s.parser._config.allowKeyValueSyntax = true)
    (hsep : s.parser._config.keyValueSeparator = "=".toList)
    (hfind : findOption s k = some h)
    (hcell : s.heap[h]? = some (.option Str stringExtractor d))
    (hk : '=' ∉ k)
    (hjoined : findOption s (k ++ "=".toList) = none) :
    parse (fuel + 1) s [k ++ "=".toList] =
      .done { s with
        heap := s.heap.set h (.option Str stringExtractor { d with value := [] }) } := by
  have harg : s.heap.hasArgument h = true := by
    rw [Heap.hasArgument_of_cell _ _ _ hcell]
    rfl
  have hupd : s.heap.update h (KeyAdapter.addValue []) =
      s.heap.set h (.option Str stringExtractor { d with value := [] }) := by
    rw [Heap.update_of_some _ _ _ _ hcell]
    rfl
  have hpair : parseKeyValue s.parser._config (k ++ "=".toList) =
      some { key := k, value := [] } := by
    have := parseKeyValue_joined s.parser._config k [] hkv hsep hk
    simpa using this
  show parseLoop (fuel + 1) s [k ++ "=".toList] = _
  unfold parseLoop
  rw [step_pair_value s _ [] _ h hjoined hpair hfind harg]
  simp only [parseLoop_nil, hupd]

/-- C17 at the registry of examples/01_simple.cpp, after `string` was set to
`"old"`: the token `-s=` empties it. -/
theorem parse_empty_right_part_witness :
    parse 1
        { simpleExample with
          heap := simpleExample.heap.set 0 (.option Str stringExtractor
            { keys := ["-s".toList, "--string".toList], required := true,
              value := "old".toList }) }
        ["-s".toList ++ "=".toList] =
      .done { simpleExample with
        heap := simpleExample.heap.set 0 (.option Str stringExtractor
          { keys := ["-s".toList, "--string".toList], required := true,
            value := [] }) } :=
  parse_empty_right_part
    { simpleExample with
      heap := simpleExample.heap.set 0 (.option Str stringExtractor
        { keys := ["-s".toList, "--string".toList], required := true,
          value := "old".toList }) }
    { keys := ["-s".toList, "--string".toList], required := true, value := "old".toList }
    0 "-s".toList 0 rfl rfl rfl rfl (by decide) rfl

/-! ## C18: an exact key is never split -/

/-- C18. For a token `t` that is a registered key, resolved to the adapter `h`,
the round follows the exact-match rule whatever `parseKeyValue` would make of
`t`: a `Flag` or `MultiFlag` is raised and `t` alone is passed over; a
value-accepting option takes the next token as its value (with no next token
the round reads the past-the-end iterator and has no defined behaviour). In
no case is `t` split: no record but the one of `h` is written, so an adapter
that the left part of `t` resolves to is left alone, and no exception is
thrown. -/
theorem parse_exact_key_first (s : State) (t : Str) (rest : List Str) (h : Handle)
    (fuel : Nat) (hfind : findOption s t = some h) :
    parse (fuel + 1) s (t :: rest) =
        (if s.heap.hasArgument h then
          match rest with
          | [] => .undefined s
          | v :: rest' =>
            parse fuel { s with heap := s.heap.update h (KeyAdapter.addValue v) } rest'
        else parse fuel { s with heap := s.heap.update h KeyAdapter.raise } rest) ∧
      (∀ h' : Handle, h' ≠ h → (step s t rest).state.heap[h']? = s.heap[h']?) ∧
      ∀ e s', step s t rest ≠ .threw e s' := by
  refine ⟨?_, ?_, ?_⟩
  · show parseLoop (fuel + 1) s (t :: rest) = _
    unfold parseLoop parse
    by_cases harg : s.heap.hasArgument h = true
    · rw [if_pos harg]
      cases rest with
      | nil => rw [step_key_no_value s t h hfind harg]
      | cons v rest' =>
        rw [step_key_value s t v rest' h hfind harg]
    · have harg' : s.heap.hasArgument h = false := by
        cases hx : s.heap.hasArgument h
        · rfl
        · exact absurd hx harg
      rw [if_neg harg, step_key_raise s t rest h hfind harg']
  · intro h' hne
    unfold step
    rw [hfind]
    simp only
    split
    · cases rest with
      | nil => rfl
      | cons v rest' => exact Heap.getElem?_update_ne _ _ _ _ (Ne.symm hne)
    · exact Heap.getElem?_update_ne _ _ _ _ (Ne.symm hne)
  · intro e s'
    unfold step
    rw [hfind]
    simp only
    split
    · cases rest with
      | nil => exact fun hc => StepResult.noConfusion hc
      | cons v rest' => exact fun hc => StepResult.noConfusion hc
    · exact fun hc => StepResult.noConfusion hc

/-- C18 at `priorityExample` and at `separatorKeyExample`. The token `-a=b` is
the key of the flag, so the flag is raised and the option `-a` does not get
the value `b`. The token `--o=x` is the key of the option, so the option takes
the next token `v` as its value, where a split would have given the value `x`
to the flag `--o` and thrown. -/
theorem parse_exact_key_first_witness :
    (parse 1 priorityExample ["-a=b".toList] =
        .done { priorityExample with
          heap := [.option Str stringExtractor { keys := ["-a".toList], value := [] },
                   .flag { keys := ["-a=b".toList], value := true }] } ∧
      parseKeyValue priorityExample.parser._config "-a=b".toList =
        some { key := "-a".toList, value := "b".toList } ∧
      findOption priorityExample "-a".toList = some 0) ∧
    (parse 1 separatorKeyExample ["--o=x".toList, "v".toList] =
        .done { separatorKeyExample with
          heap := [.flag { keys := ["--o".toList] },
                   .option Str stringExtractor
                     { keys := ["--o=x".toList], value := "v".toList }] } ∧
      parseKeyValue separatorKeyExample.parser._config "--o=x".toList =
        some { key := "--o".toList, value := "x".toList } ∧
      findOption separatorKeyExample "--o".toList = some 0) :=
  ⟨⟨(parse_exact_key_first priorityExample "-a=b".toList [] 1 0 rfl).1, rfl, rfl⟩,
    ⟨(parse_exact_key_first separatorKeyExample "--o=x".toList ["v".toList] 1 0 rfl).1,
      rfl, rfl⟩⟩

/-! ## C19: a single-value option keeps the last value -/

/-- The key `k` of an `Option<T>` given once per value text: the option ends
with the conversion of the last text, or with what it held when there is
none. -/
theorem parseLoop_option_repeated (T : Type) (io : Extractor T) (k : Str) (h : Handle)
    (vs : List Str) (s : State) (d : OptionData T) (fuel : Nat)
    (hfind : findOption s k = some h)
    (hcell : s.heap[h]? = some (.option T io d))
    (hfuel : vs.length ≤ fuel) :
    parseLoop fuel s (vs.flatMap fun v => [k, v]) =
      .done { s with
        heap := s.heap.set h (.option T io
          { d with value := (vs.getLast?.map (read io)).getD d.value }) } := by
  induction vs generalizing s d fuel with
  | nil =>
    simp only [List.flatMap_nil, parseLoop_nil, List.getLast?_nil, Option.map_none',
      Option.getD_none]
    rw [Heap.set_same _ _ _ hcell]
  | cons v vs ih =>
    cases fuel with
    | zero => simp at hfuel
    | succ fuel =>
      have harg : s.heap.hasArgument h = true := by
        rw [Heap.hasArgument_of_cell _ _ _ hcell]
        rfl
      have hupd : s.heap.update h (KeyAdapter.addValue v) =
          s.heap.set h (.option T io (d.assign (read io v))) := by
        rw [Heap.update_of_some _ _ _ _ hcell]
        rfl
      simp only [List.flatMap_cons, List.cons_append, List.nil_append]
      unfold parseLoop
      rw [step_key_value s k v _ h hfind harg]
      simp only
      have hfind' : findOption { s with heap := s.heap.update h (KeyAdapter.addValue v) } k
          = some h := by
        rw [findOption_update _ _ _ _ (KeyAdapter.keys_addValue v)]
        exact hfind
      have hcell' : ({ s with heap := s.heap.update h (KeyAdapter.addValue v) } : State).heap[h]?
          = some (.option T io (d.assign (read io v))) := by
        show (s.heap.update h (KeyAdapter.addValue v))[h]? = _
        rw [hupd]
        exact Heap.getElem?_set_self _ _ _ _ hcell
      rw [ih _ (d.assign (read io v)) fuel hfind' hcell' (by simpa using hfuel)]
      have hlast : ((v :: vs).getLast?.map (read io)).getD d.value =
          (vs.getLast?.map (read io)).getD (read io v) := by
        cases vs with
        | nil => rfl
        | cons w ws => simp [List.getLast?_cons_cons, List.getLast?_eq_getLast]
      simp only [hupd, List.set_set, OptionData.assign, hlast]

/-- C19. For an `Option<T>` that the key `k` resolves to and value texts
`v1..vn` with `n >= 1`, `parse` on `[k, v1, ..., k, vn]` returns (after `n`
rounds, without an exception) and the option holds `read(vn)`: every
`addValue` replaces the value, nothing is accumulated; nothing else
changes. -/
theorem parse_option_last_value (T : Type) (io : Extractor T) (k : Str) (h : Handle)
    (vs : List Str) (s : State) (d : OptionData T) (fuel : Nat)
    (hne : vs ≠ [])
    (hfind : findOption s k = some h)
    (hcell : s.heap[h]? = some (.option T io d))
    (hfuel : vs.length ≤ fuel) :
    parse fuel s (vs.flatMap fun v => [k, v]) =
      .done { s with
        heap := s.heap.set h (.option T io { d with value := read io (vs.getLast hne) }) } := by
  unfold parse
  rw [parseLoop_option_repeated T io k h vs s d fuel hfind hcell hfuel,
    List.getLast?_eq_getLast vs hne]
  rfl

/-- C19 at the registry of examples/01_simple.cpp: `-n 1 -n 2 -n 7` leaves
`number` at 7. -/
theorem parse_option_last_value_witness :
    parse 3 simpleExample
        ["-n".toList, "1".toList, "-n".toList, "2".toList, "-n".toList, "7".toList] =
      .done { simpleExample with
        heap := simpleExample.heap.set 1 (.option Int intExtractor
          { keys := ["-n".toList, "--number".toList], value := 7 }) } :=
  parse_option_last_value Int intExtractor "-n".toList 1
    ["1".toList, "2".toList, "7".toList] simpleExample
    { keys := ["-n".toList, "--number".toList], value := 3 } 3
    (by decide) rfl rfl (by decide)

/-! ## C20: a multi-valued positional -/

/-- C20, the code at `["a", "b"]` with a `MultiValue<std::string>` at the
cursor and a `Value<std::string>` behind it: the cursor stays, and so does the
iterator, so every round appends `read("a")` again. After `fuel` rounds the
sequence holds `fuel` copies of `a`, the token `b` has not been reached and
the run has not returned; the positional behind has received nothing. -/
theorem parse_multiValue_repeats_first (fuel : Nat) :
    parse fuel multiValueExample ["a".toList, "b".toList] =
      .running
        { heap := [.multiValue Str stringExtractor
                     { values := List.replicate fuel "a".toList },
                   .value Str stringExtractor { value := [] }],
          parser := { _arguments := [0, 1], _position := 0, _collectLevtovers := false,
                      _leftovers := [] } }
        ["a".toList, "b".toList] := by
  have hgen : ∀ (n m : Nat),
      parseLoop n
          { heap := [.multiValue Str stringExtractor
                       { values := List.replicate m "a".toList },
                     .value Str stringExtractor { value := [] }],
            parser := { _arguments := [0, 1], _position := 0, _collectLevtovers := false,
                        _leftovers := [] } }
          ["a".toList, "b".toList] =
        .running
          { heap := [.multiValue Str stringExtractor
                       { values := List.replicate (m + n) "a".toList },
                     .value Str stringExtractor { value := [] }],
            parser := { _arguments := [0, 1], _position := 0, _collectLevtovers := false,
                        _leftovers := [] } }
          ["a".toList, "b".toList] := by
    intro n
    induction n with
    | zero => intro m; rfl
    | succ n ih =>
      intro m
      have hstep : step
          { heap := [.multiValue Str stringExtractor
                       { values := List.replicate m "a".toList },
                     .value Str stringExtractor { value := [] }],
            parser := { _arguments := [0, 1], _position := 0, _collectLevtovers := false,
                        _leftovers := [] } }
          "a".toList ["b".toList] =
          .next
            { heap := [.multiValue Str stringExtractor
                         { values := List.replicate (m + 1) "a".toList },
                       .value Str stringExtractor { value := [] }],
              parser := { _arguments := [0, 1], _position := 0, _collectLevtovers := false,
                          _leftovers := [] } }
            ["a".toList, "b".toList] := by
        rw [List.replicate_succ']
        rfl
      unfold parseLoop
      rw [hstep]
      simp only
      rw [ih (m + 1)]
      have : m + 1 + n = m + (n + 1) := by omega
      rw [this]
  have := hgen fuel 0
  simpa [multiValueExample, parse] using this

/-! ## C21: the token behind a value-accepting key is its value -/

/-- C21. For a value-accepting option (`Option<T>` or `MultiOption<T>`) that
the key `k` resolves to and any token `v`, also one that is a registered key
of a flag or of another option, `parse` on `[k, v]` returns after one round
whose only write is `addValue(v)` on the adapter of `k`: no exception, and
every other record, the one that owns `v` as a key included, is as it was
(nothing is raised, nothing else receives a value). -/
theorem parse_value_is_not_a_key (s : State) (k v : Str) (h : Handle) (fuel : Nat)
    (hfind : findOption s k = some h) (harg : s.heap.hasArgument h = true) :
    parse (fuel + 1) s [k, v] =
        .done { s with heap := s.heap.update h (KeyAdapter.addValue v) } ∧
      (s.heap.update h (KeyAdapter.addValue v))[h]? =
        s.heap[h]?.map (KeyAdapter.addValue v) ∧
      ∀ h' : Handle, h' ≠ h →
        (s.heap.update h (KeyAdapter.addValue v))[h']? = s.heap[h']? := by
  refine ⟨?_, ?_, ?_⟩
  · show parseLoop (fuel + 1) s [k, v] = _
    unfold parseLoop
    rw [step_key_value s k v [] h hfind harg]
    simp only [parseLoop_nil]
  · rw [Heap.getElem?_update, if_pos rfl]
  · intro h' hne
    exact Heap.getElem?_update_ne _ _ _ _ (Ne.symm hne)

/-- C21 at the registry of examples/01_simple.cpp: in `-s -n` the token `-n`,
a key of `number`, becomes the value of `string`; `number` keeps 3. -/
theorem parse_value_is_not_a_key_witness :
    findOption simpleExample "-n".toList = some 1 ∧
      parse 1 simpleExample ["-s".toList, "-n".toList] =
        .done { simpleExample with
          heap := [.option Str stringExtractor
                     { keys := ["-s".toList, "--string".toList], required := true,
                       value := "-n".toList },
                   .option Int intExtractor
                     { keys := ["-n".toList, "--number".toList], value := 3 }] } :=
  ⟨rfl, (parse_value_is_not_a_key simpleExample "-s".toList "-n".toList 0 0 rfl rfl).1⟩

/-! ## C22: `read<std::string>` keeps the last word -/

theorem wordsAux_append_word (cur w rest : Str) (hw : ∀ c ∈ w, isspace c = false) :
    wordsAux cur (w ++ rest) = wordsAux (cur ++ w) rest := by
  induction w generalizing cur with
  | nil => simp
  | cons a w ih =>
    have ha : isspace a = false := hw a (List.mem_cons_self _ _)
    rw [List.cons_append, wordsAux]
    simp only [ha, Bool.false_eq_true, if_false]
    rw [ih (cur ++ [a]) (fun c hc => hw c (List.mem_cons_of_mem _ hc))]
    simp

theorem wordsAux_space (c : Char) (cs : Str) (hc : isspace c = true) :
    wordsAux [] (c :: cs) = wordsAux [] cs := by
  rw [wordsAux]
  simp [hc]

theorem wordsAux_dropWhile (b : Str) :
    wordsAux [] (b.dropWhile isspace) = wordsAux [] b := by
  induction b with
  | nil => rfl
  | cons a b ih =>
    by_cases ha : isspace a = true
    · rw [List.dropWhile_cons, if_pos ha, ih, wordsAux_space a b ha]
    · rw [List.dropWhile_cons, if_neg ha]

theorem dropWhile_head_fails (p : Char → Bool) (l : Str) (x : Char) (r : Str)
    (h : l.dropWhile p = x :: r) : p x = false := by
  induction l with
  | nil => exact List.noConfusion h
  | cons a l ih =>
    rw [List.dropWhile_cons] at h
    by_cases ha : p a = true
    · rw [if_pos ha] at h
      exact ih h
    · rw [if_neg ha] at h
      injection h with h1 h2
      subst h1
      cases hx : p a
      · rfl
      · exact absurd hx ha

/-- The words of a text that starts with a character of a word: that word,
then the words of what is behind it. -/
theorem wordsAux_cons_word (c : Char) (cs : Str) (hc : isspace c = false) :
    wordsAux [] (c :: cs) =
      (c :: cs.takeWhile fun x => !isspace x) ::
        wordsAux [] (cs.dropWhile fun x => !isspace x) := by
  have hsplit : c :: cs =
      (c :: cs.takeWhile fun x => !isspace x) ++ cs.dropWhile fun x => !isspace x := by
    rw [List.cons_append, List.takeWhile_append_dropWhile]
  have hw : ∀ x ∈ (c :: cs.takeWhile fun x => !isspace x), isspace x = false := by
    intro x hx
    rcases List.mem_cons.mp hx with rfl | hx
    · exact hc
    · have := List.mem_takeWhile_imp hx
      simpa using this
  conv => lhs; rw [hsplit]
  rw [wordsAux_append_word [] _ _ hw, List.nil_append]
  cases hr : cs.dropWhile fun x => !isspace x with
  | nil => rfl
  | cons x r =>
    have hx : isspace x = true := by
      have := dropWhile_head_fails _ _ _ _ hr
      simpa using this
    rw [wordsAux_space x r hx, wordsAux]
    simp [hx]

theorem readLoop_not_good {T : Type} (io : Extractor T) (n : Nat) (st : istringstream)
    (v : T) (h : st.good = false) : readLoop io n st v = v := by
  cases n with
  | zero => rfl
  | succ n => simp [readLoop, h]

/-- The loop of `read` for `std::string` on a good stream: the value ends as
the last word of the buffer, or stays what it was when the buffer has no
word. -/
theorem readLoop_string (n : Nat) (b v : Str) (hn : b.length < n) :
    readLoop stringExtractor n { buf := b } v = (words b).getLast?.getD v := by
  induction n generalizing b v with
  | zero => exact absurd hn (Nat.not_lt_zero _)
  | succ n ih =>
    have hle : (b.dropWhile isspace).length ≤ b.length :=
      (List.dropWhile_suffix isspace).length_le
    have hwords : words b = wordsAux [] (b.dropWhile isspace) :=
      (wordsAux_dropWhile b).symm
    unfold readLoop
    have hgood : ({ buf := b } : istringstream).good = true := rfl
    rw [if_pos hgood]
    show readLoop stringExtractor n (extractString { buf := b } v).1
      (extractString { buf := b } v).2 = _
    unfold extractString
    rw [if_pos hgood]
    cases hcs : b.dropWhile isspace with
    | nil =>
      rw [hwords, hcs]
      simp only
      refine (readLoop_not_good _ _ _ _ ?_).trans ?_
      · rfl
      · rfl
    | cons c cs =>
      have hc : isspace c = false := dropWhile_head_fails _ _ _ _ hcs
      rw [hwords, hcs, wordsAux_cons_word c cs hc, List.getLast?_cons]
      simp only [Option.getD_some]
      rw [hcs] at hle
      have hle2 : (cs.dropWhile fun x => !isspace x).length ≤ cs.length :=
        (List.dropWhile_suffix _).length_le
      simp only [List.length_cons] at hle
      cases hr : cs.dropWhile fun x => !isspace x with
      | nil =>
        refine (readLoop_not_good _ _ _ _ ?_).trans ?_
        · rfl
        · rfl
      | cons x r =>
        rw [hr] at hle2
        have := ih (x :: r) (c :: cs.takeWhile fun x => !isspace x)
          (by simp only [List.length_cons] at hle2 ⊢; omega)
        exact this

theorem wordsAux_no_space (b cur : Str) (hcur : ∀ c ∈ cur, isspace c = false) :
    ∀ w ∈ wordsAux cur b, ∀ c ∈ w, isspace c = false := by
  induction b generalizing cur with
  | nil =>
    intro w hw
    rw [wordsAux] at hw
    by_cases he : cur.isEmpty = true
    · rw [if_pos he] at hw
      exact absurd hw (List.not_mem_nil _)
    · rw [if_neg he] at hw
      rw [List.mem_singleton.mp hw]
      exact hcur
  | cons a b ih =>
    intro w hw
    rw [wordsAux] at hw
    by_cases ha : isspace a = true
    · rw [if_pos ha] at hw
      have hnil : ∀ c ∈ ([] : Str), isspace c = false :=
        fun c hc => absurd hc (List.not_mem_nil _)
      by_cases he : cur.isEmpty = true
      · rw [if_pos he] at hw
        exact ih [] hnil w hw
      · rw [if_neg he] at hw
        rcases List.mem_cons.mp hw with rfl | hw
        · exact hcur
        · exact ih [] hnil w hw
    · rw [if_neg ha] at hw
      have ha' : isspace a = false := by
        cases hx : isspace a
        · rfl
        · exact absurd hx ha
      refine ih (cur ++ [a]) ?_ w hw
      intro c hc
      rcases List.mem_append.mp hc with hc | hc
      · exact hcur c hc
      · rw [List.mem_singleton.mp hc]
        exact ha'

/-- C22. The conversion `read<std::string>(s)` returns the last
white-space-delimited word of `s`; it returns the empty string when `s` has
no character that is not white space; and it returns `s` itself exactly when
`s` is empty or has no white space. It is a total function: there is no
result by which it could signal a failure. -/
theorem read_string_last_word (s : Str) :
    read stringExtractor s = lastWord s ∧
      ((∀ c ∈ s, isspace c = true) → read stringExtractor s = []) ∧
      (read stringExtractor s = s ↔ s = [] ∨ ∀ c ∈ s, isspace c = false) := by
  have hread : read stringExtractor s = lastWord s :=
    readLoop_string (s.length + 1) s [] (Nat.lt_succ_self _)
  refine ⟨hread, ?_, ?_⟩
  · intro hall
    have hdrop : s.dropWhile isspace = [] := List.dropWhile_eq_nil_iff.mpr hall
    rw [hread]
    unfold lastWord words
    rw [← wordsAux_dropWhile, hdrop]
    rfl
  · rw [hread]
    constructor
    · intro heq
      unfold lastWord at heq
      cases hlast : (words s).getLast? with
      | none =>
        rw [hlast] at heq
        exact Or.inl heq.symm
      | some w =>
        rw [hlast] at heq
        have hmem : w ∈ words s := List.mem_of_getLast?_eq_some hlast
        have hw := wordsAux_no_space s [] (fun c hc => absurd hc (List.not_mem_nil _)) w hmem
        have hws : w = s := heq
        rw [hws] at hw
        exact Or.inr hw
    · intro hs
      cases s with
      | nil => rfl
      | cons c cs =>
        have hno : ∀ x ∈ c :: cs, isspace x = false := by
          rcases hs with hs | hs
          · exact List.noConfusion hs
          · exact hs
        have hc : isspace c = false := hno c (List.mem_cons_self _ _)
        have htake : (cs.takeWhile fun x => !isspace x) = cs := by
          rw [List.takeWhile_eq_self_iff]
          intro x hx
          simp [hno x (List.mem_cons_of_mem _ hx)]
        have hdrop : (cs.dropWhile fun x => !isspace x) = [] := by
          rw [List.dropWhile_eq_nil_iff]
          intro x hx
          simp [hno x (List.mem_cons_of_mem _ hx)]
        unfold lastWord words
        rw [wordsAux_cons_word c cs hc, htake, hdrop]
        rfl

/-- C22 at `"a b "`, `"   "` and `"word"`: the last word `b`, the empty string,
and the text itself. -/
theorem read_string_last_word_witness :
    read stringExtractor "a b ".toList = "b".toList ∧
      read stringExtractor "   ".toList = [] ∧
      read stringExtractor "word".toList = "word".toList :=
  ⟨(read_string_last_word "a b ".toList).1,
    (read_string_last_word "   ".toList).2.1 (by decide),
    (read_string_last_word "word".toList).2.2.mpr (Or.inr (by decide))⟩

end arg
